import Mathlib

/-!
# File Search Bot (`bot.js`): embedding and verified properties

A shallow embedding of the request-handling core of `bot.js`:

* JavaScript strings are lists of characters (`Str`);
* the two MongoDB collections (`files`, `daily_limits`) are lists of documents in insertion
  order, `find` is a filter, `findOne` the first match, `insertOne` appends, `deleteOne` removes
  the first match;
* the process-wide `userSearchResults` map is a function from user ids to optional entries;
* `setTimeout` callbacks are kept in an explicit list of pending timers that fire when the
  clock reaches their due time;
* every handler is a function from the state before to the state after, the list of calls made
  to the Telegram API, and the exception thrown, if any.

Storage and Telegram calls are taken to succeed, except the four file deliveries, whose outcome
is an input of the selection handler (it decides whether the `catch` branch runs).
-/

namespace Bot

/-! ## Strings -/

/-- A JavaScript string, as the list of its characters. -/
abbrev Str := List Char

/-- The characters matched by `\s` in a regular expression, which are also the ones removed by
`String.prototype.trim`: ECMAScript WhiteSpace and LineTerminator. -/
def isWhiteSpace (c : Char) : Bool :=
  let n := c.toNat
  n == 0x09 || n == 0x0A || n == 0x0B || n == 0x0C || n == 0x0D || n == 0x20 ||
  n == 0xA0 || n == 0x1680 || (0x2000 ≤ n && n ≤ 0x200A) || n == 0x2028 || n == 0x2029 ||
  n == 0x202F || n == 0x205F || n == 0x3000 || n == 0xFEFF

/-- The character class `[\s,]` of the keyword separator. -/
def isSep (c : Char) : Bool := isWhiteSpace c || c == ','

/-- `String.prototype.trim`. -/
def trim (s : Str) : Str :=
  ((s.dropWhile isWhiteSpace).reverse.dropWhile isWhiteSpace).reverse

/-- The loop of `split(/[\s,]+/)`: `inSep` tells that the previous character was part of a
separator match, `acc` is the piece being read, reversed. -/
def splitSepGo : Bool → Str → Str → List Str
  | _, acc, [] => [acc.reverse]
  | inSep, acc, c :: cs =>
    if isSep c then
      if inSep then splitSepGo true [] cs
      else acc.reverse :: splitSepGo true [] cs
    else splitSepGo false (c :: acc) cs

/-- `s.split(/[\s,]+/)`: the pieces of `s` between the maximal runs of separators; a string
that starts (ends) with a separator gives a leading (trailing) empty piece, and the empty
string gives one empty piece. -/
def splitSep (s : Str) : List Str := splitSepGo false [] s

/-- The loop of `split(',')`. -/
def splitCommaGo : Str → Str → List Str
  | acc, [] => [acc.reverse]
  | acc, c :: cs =>
    if c == ',' then acc.reverse :: splitCommaGo [] cs else splitCommaGo (c :: acc) cs

/-- `s.split(',')`. -/
def splitComma (s : Str) : List Str := splitCommaGo [] s

/-- `String.prototype.includes`: `sub` occurs in `s` as a substring. -/
def includes : Str → Str → Bool
  | [], sub => sub.isEmpty
  | c :: cs, sub => sub.isPrefixOf (c :: cs) || includes cs sub

/-- `String.prototype.startsWith`. -/
def startsWith (s pre : Str) : Bool := pre.isPrefixOf s

/-- `Number.prototype.toString` of a user id (a non-negative integer): its decimal digits. -/
def idToString (n : Nat) : Str := Nat.toDigits 10 n

/-- The value of a digit of radix `radix`, if `c` is one. -/
def digitValue (radix : Nat) (c : Char) : Option Nat :=
  let n := c.toNat
  let v : Option Nat :=
    if 48 ≤ n && n ≤ 57 then some (n - 48)
    else if 97 ≤ n && n ≤ 122 then some (n - 87)
    else if 65 ≤ n && n ≤ 90 then some (n - 55)
    else none
  match v with
  | some d => if d < radix then some d else none
  | none => none

/-- The longest prefix of `s` made of digits of radix `radix`, as their values. -/
def takeDigits (radix : Nat) : Str → List Nat
  | [] => []
  | c :: cs =>
    match digitValue radix c with
    | some d => d :: takeDigits radix cs
    | none => []

/-- The sign read by `parseInt`: whether it is `-`, and the rest of the string. -/
def stripSign : Str → Bool × Str
  | '-' :: r => (true, r)
  | '+' :: r => (false, r)
  | r => (false, r)

/-- The radix chosen by `parseInt` with no radix argument, and the rest of the string:
16 after a `0x` or `0X`, which is removed, and 10 otherwise. -/
def stripRadix : Str → Nat × Str
  | '0' :: 'x' :: r => (16, r)
  | '0' :: 'X' :: r => (16, r)
  | r => (10, r)

/-- `parseInt(s)` with no radix argument; `none` is `NaN`. Leading white space is skipped, one
sign is read, a `0x`/`0X` prefix selects radix 16, and the longest prefix of digits is the
value; with no digit the result is `NaN`. The value is exact (no rounding to a double). -/
def parseInt (s : Str) : Option Int :=
  let signed := stripSign (s.dropWhile isWhiteSpace)
  let based := stripRadix signed.2
  match takeDigits based.1 based.2 with
  | [] => none
  | d :: ds =>
    let v : Nat := (d :: ds).foldl (fun a x => a * based.1 + x) 0
    some (if signed.1 then -(v : Int) else (v : Int))

/-! ## Configuration and library behaviour -/

/-- The environment variables read at start-up. `DAILY_LIMIT` and `RESULTS_PER_PAGE` stand for
the numbers `Number(DAILY_LIMIT)` and `Number(RESULTS_PER_PAGE)` the handlers compare with,
for integer settings. -/
structure Config where
  ADMIN_IDS : Str
  DAILY_LIMIT : Int
  RESULTS_PER_PAGE : Int

/-- Behaviour of the libraries the handlers call, which the source does not fix:
`toLowerCase` is `String.prototype.toLowerCase`, and `resultHasValue` tells whether the
MongoDB driver answers `findOneAndUpdate` with a wrapper whose `value` field holds the
document (otherwise `result.value` is empty and the handler reads the document back). -/
structure Env where
  toLowerCase : Str → Str
  resultHasValue : Bool

/-- `const adminIds = ADMIN_IDS.split(',').map(id => id.trim())`. -/
def adminIds (cfg : Config) : List Str := (splitComma cfg.ADMIN_IDS).map trim

/-- The delay of the selection cache timer, `5 * 60 * 1000` milliseconds. -/
def TTL : Nat := 5 * 60 * 1000

/-- `new Date().toISOString().split('T')[0]`: the UTC calendar date of the clock reading `now`
(milliseconds since the epoch), represented by its day number. -/
def isoDate (now : Nat) : Nat := now / 86400000

/-! ## Data model -/

/-- A document of the `files` collection, with the fields written by the upload flow. An
absent `file_id` is JavaScript's `undefined`. -/
structure FileRecord where
  file_id : Option Str
  file_name : Str
  keywords : List Str
  caption : Str
  type : Str
  addedBy : Nat
  addedAt : Nat
deriving DecidableEq

/-- A document of the `daily_limits` collection. -/
structure LimitDoc where
  userId : Nat
  date : Nat
  count : Nat
deriving DecidableEq

/-- A `document`, `video` or `audio` attachment of a message. -/
structure FileInfo where
  file_id : Str
  file_name : Option Str
deriving DecidableEq

/-- One size of a photo attachment. -/
structure PhotoSize where
  file_id : Str
deriving DecidableEq

/-- The fields of an incoming message that the handlers read. -/
structure Msg where
  chatId : Int
  fromId : Nat
  text : Option Str
  caption : Option Str
  document : Option FileInfo
  video : Option FileInfo
  audio : Option FileInfo
  photo : Option (List PhotoSize)
deriving DecidableEq

/-- The fields of a callback query that the handler reads. -/
structure Query where
  id : Str
  chatId : Int
  fromId : Nat
  data : Option Str
deriving DecidableEq

/-- The texts the bot sends with `sendMessage`. -/
inductive Reply where
  | adminsOnly
  | usage
  | fileSaved (fileId : Option Str) (keywords : List Str)
  | limitReached
  | searching (keyword : Option Str)
  | noFilesFound
  | found (total : Nat) (buttons : List (Str × Str))
  | searchingWar
  | notFoundOrExpired
  | sendingFile
  | failedToSend
  | notAllowedToDelete
  | deleted (fileId : Str)
  | noFileWithId
deriving DecidableEq

/-- The calls made to the Telegram API. -/
inductive Action where
  | sendMessage (chatId : Int) (reply : Reply)
  | answerCallbackQuery (id : Str)
  | sendDocument (chatId : Int) (fileId : Option Str) (caption : Str)
  | sendVideo (chatId : Int) (fileId : Option Str) (caption : Str)
  | sendAudio (chatId : Int) (fileId : Option Str) (caption : Str)
  | sendPhoto (chatId : Int) (fileId : Option Str) (caption : Str)
deriving DecidableEq

/-- The exceptions a handler can end with. -/
inductive JsError where
  | typeError
deriving DecidableEq

/-- An entry of `userSearchResults`. `storedAt` is the clock reading at the `set` call; it is
a record for the proofs and no handler reads it. -/
structure CacheEntry where
  results : List FileRecord
  storedAt : Nat
deriving DecidableEq

/-- A pending `setTimeout(() => userSearchResults.delete(userId), 5 * 60 * 1000)`. -/
structure Timer where
  due : Nat
  userId : Nat
deriving DecidableEq

/-- The two collections, the selection map and the pending timers. -/
structure State where
  files : List FileRecord
  limits : List LimitDoc
  userSearchResults : Nat → Option CacheEntry
  timers : List Timer

/-- What a handler run leaves: the state, the API calls in order, and the exception thrown. -/
structure Outcome where
  state : State
  actions : List Action
  thrown : Option JsError

/-! ## Helper functions of `bot.js` -/

/-- The filter `{ userId, date: today }`. -/
def LimitDoc.isFor (u d : Nat) (x : LimitDoc) : Bool := x.userId == u && x.date == d

/-- `checkDailyLimit`: `limit?.count || 0` of the first counter of the user for today. -/
def checkDailyLimit (limits : List LimitDoc) (userId today : Nat) : Nat :=
  match limits.find? (LimitDoc.isFor userId today) with
  | some limit => limit.count
  | none => 0

/-- The update `{ $inc: { count: 1 } }` with `upsert: true` on the filter
`{ userId, date: today }`: the first matching counter is incremented, and a counter with
count 1 is inserted when there is none. -/
def incCount (u d : Nat) : List LimitDoc → List LimitDoc
  | [] => [⟨u, d, 1⟩]
  | x :: xs =>
    if x.isFor u d then ⟨x.userId, x.date, x.count + 1⟩ :: xs else x :: incCount u d xs

/-- `incrementUserLimit`: the collection after the update, and the count returned. -/
def incrementUserLimit (env : Env) (limits : List LimitDoc) (userId today : Nat) :
    Except JsError (List LimitDoc × Nat) :=
  let limits1 := incCount userId today limits
  let value : Option LimitDoc :=
    if env.resultHasValue then limits1.find? (LimitDoc.isFor userId today) else none
  match value with
  | some v => .ok (limits1, v.count)
  | none =>
    match limits1.find? (LimitDoc.isFor userId today) with
    | some doc => .ok (limits1, doc.count)
    | none => .error .typeError

/-- The keyword pipeline `split(/[\s,]+/).map(k => k.trim().toLowerCase()).filter(k => k)`. -/
def normalizeKeywords (env : Env) (s : Str) : List Str :=
  ((splitSep s).map (fun k => env.toLowerCase (trim k))).filter (fun k => !k.isEmpty)

/-- The query `{ keywords: { $in: keywordList } }` on one document. -/
def matchesIn (keywordList : List Str) (r : FileRecord) : Bool :=
  r.keywords.any (fun k => keywordList.contains k)

/-- The results of the search flow for the text `keyword`, before truncation. -/
def searchResults (env : Env) (files : List FileRecord) (keyword : Str) : List FileRecord :=
  files.filter (matchesIn (normalizeKeywords env keyword))

/-- `results.slice(0, n)`. -/
def slice0 (results : List FileRecord) (n : Int) : List FileRecord :=
  if n < 0 then results.take (results.length - n.natAbs) else results.take n.toNat

/-- Truthiness of a value that is a string or `undefined`. -/
def truthy : Option Str → Bool
  | some s => !s.isEmpty
  | none => false

/-- `msg.document || msg.video || msg.audio || msg.photo` as a condition (an array is truthy,
also when empty). -/
def hasMedia (msg : Msg) : Bool :=
  msg.document.isSome || msg.video.isSome || msg.audio.isSome || msg.photo.isSome

/-- The expression
`msg.document?.file_id || msg.photo?.[msg.photo.length - 1].file_id || msg.video?.file_id ||
msg.audio?.file_id`; reading `file_id` of the last element of an empty `photo` array throws. -/
def uploadFileId (msg : Msg) : Except JsError (Option Str) :=
  let d := msg.document.map (fun x => x.file_id)
  if truthy d then .ok d else
  match msg.photo.map (fun p => p.getLast?) with
  | some none => .error .typeError
  | p =>
    let ph : Option Str := (p.bind id).map (fun x => x.file_id)
    if truthy ph then .ok ph else
    let v := msg.video.map (fun x => x.file_id)
    if truthy v then .ok v else .ok (msg.audio.map (fun x => x.file_id))

/-- `msg.document?.file_name || msg.video?.file_name || msg.audio?.file_name || 'file'`. -/
def uploadFileName (msg : Msg) : Str :=
  let d := msg.document.bind (fun x => x.file_name)
  if truthy d then d.getD [] else
  let v := msg.video.bind (fun x => x.file_name)
  if truthy v then v.getD [] else
  let a := msg.audio.bind (fun x => x.file_name)
  if truthy a then a.getD [] else "file".toList

/-- The `type` field chosen by the upload flow. -/
def uploadType (msg : Msg) : Str :=
  if msg.document.isSome then "document".toList
  else if msg.photo.isSome then "photo".toList
  else if msg.video.isSome then "video".toList
  else if msg.audio.isSome then "audio".toList
  else "unknown".toList

/-- The inline keyboard of a result list: one button per result, labelled with the file name
and carrying `index.toString()`. -/
def buttonsGo : Nat → List FileRecord → List (Str × Str)
  | _, [] => []
  | i, f :: fs => (f.file_name, idToString i) :: buttonsGo (i + 1) fs

/-- The buttons of `limitedResults`. -/
def buttons (limitedResults : List FileRecord) : List (Str × Str) := buttonsGo 0 limitedResults

/-! ## Handlers -/

/-- Body of `bot.on('message', ...)`, run with the clock at `now`. -/
def onMessage (env : Env) (cfg : Config) (now : Nat) (s : State) (msg : Msg) : Outcome :=
  if (msg.text.map (fun t => startsWith t ['/'])).getD false then ⟨s, [], none⟩
  else if hasMedia msg && !includes cfg.ADMIN_IDS (idToString msg.fromId) then
    ⟨s, [.sendMessage msg.chatId .adminsOnly], none⟩
  else if (adminIds cfg).contains (idToString msg.fromId) && hasMedia msg then
    match uploadFileId msg with
    | .error e => ⟨s, [], some e⟩
    | .ok fileId =>
      let fileName := uploadFileName msg
      let caption := msg.caption.getD []
      let keywords := normalizeKeywords env caption
      if keywords.isEmpty then ⟨s, [.sendMessage msg.chatId .usage], none⟩
      else
        let doc : FileRecord :=
          ⟨fileId, fileName, keywords, caption, uploadType msg, msg.fromId, now⟩
        ⟨⟨s.files ++ [doc], s.limits, s.userSearchResults, s.timers⟩,
          [.sendMessage msg.chatId (.fileSaved fileId keywords)], none⟩
  else
    let dailyCount := checkDailyLimit s.limits msg.fromId (isoDate now)
    if (dailyCount : Int) ≥ cfg.DAILY_LIMIT then
      ⟨s, [.sendMessage msg.chatId .limitReached], none⟩
    else
      match msg.text with
      | none => ⟨s, [.sendMessage msg.chatId (.searching none)], some .typeError⟩
      | some keyword =>
        let results := searchResults env s.files keyword
        if results.isEmpty then
          ⟨s, [.sendMessage msg.chatId (.searching (some keyword)),
                .sendMessage msg.chatId .noFilesFound], none⟩
        else
          let limitedResults := slice0 results cfg.RESULTS_PER_PAGE
          ⟨⟨s.files, s.limits,
              Function.update s.userSearchResults msg.fromId (some ⟨limitedResults, now⟩),
              s.timers ++ [⟨now + TTL, msg.fromId⟩]⟩,
            [.sendMessage msg.chatId (.searching (some keyword)),
             .sendMessage msg.chatId (.found results.length (buttons limitedResults))], none⟩

/-- `parseInt(query.data)`; an absent `data` is converted to the string `undefined`. -/
def parseIndex (data : Option Str) : Option Int :=
  match data with
  | some d => parseInt d
  | none => parseInt "undefined".toList

/-- `userResults[index]`: the element at `index` when it is an integer within the array, and
`undefined` otherwise (`NaN`, negative or past the end). -/
def elementAt (userResults : List FileRecord) (index : Option Int) : Option FileRecord :=
  match index with
  | some (Int.ofNat i) => userResults.get? i
  | _ => none

/-- Lines 224 to 229: the record selected by `index` in the user's cached results, or `none`
when the handler answers that the file was not found or expired. -/
def resolveSelection (entry : Option CacheEntry) (index : Option Int) : Option FileRecord :=
  match entry with
  | none => none
  | some e => elementAt e.results index

/-- `file.caption || file.file_name`. -/
def captionOf (file : FileRecord) : Str :=
  if file.caption.isEmpty then file.file_name else file.caption

/-- The `try`/`catch` block of the selection handler; `sendOk` tells whether the delivery call
succeeds. -/
def deliver (chatId : Int) (file : FileRecord) (sendOk : Bool) : List Action :=
  let failure : List Action := if sendOk then [] else [.sendMessage chatId .failedToSend]
  if file.type = "document".toList then
    .sendDocument chatId file.file_id (captionOf file) :: failure
  else if file.type = "video".toList then
    .sendVideo chatId file.file_id (captionOf file) :: failure
  else if file.type = "audio".toList then
    .sendAudio chatId file.file_id (captionOf file) :: failure
  else if file.type = "photo".toList then
    .sendPhoto chatId file.file_id (captionOf file) :: failure
  else [.sendMessage chatId .failedToSend]

/-- The calls of the selection handler before the cache lookup. -/
def callbackPrelude (q : Query) : List Action :=
  (if q.data = some "search_war".toList then [Action.sendMessage q.chatId .searchingWar]
   else []) ++ [.answerCallbackQuery q.id]

/-- The selection handler from line 229 on, for the resolved record `file`. -/
def chargeAndDeliver (env : Env) (cfg : Config) (now : Nat) (s : State) (q : Query)
    (file : FileRecord) (sendOk : Bool) : Outcome :=
  match incrementUserLimit env s.limits q.fromId (isoDate now) with
  | .error e =>
    ⟨⟨s.files, incCount q.fromId (isoDate now) s.limits, s.userSearchResults, s.timers⟩,
      callbackPrelude q, some e⟩
  | .ok (limits1, dailyCount) =>
    let s1 : State := ⟨s.files, limits1, s.userSearchResults, s.timers⟩
    if (dailyCount : Int) > cfg.DAILY_LIMIT then
      ⟨s1, callbackPrelude q ++ [.sendMessage q.chatId .limitReached], none⟩
    else
      ⟨s1, callbackPrelude q ++ [.sendMessage q.chatId .sendingFile] ++
        deliver q.chatId file sendOk, none⟩

/-- Body of `bot.on('callback_query', ...)`, run with the clock at `now`. -/
def onCallbackQuery (env : Env) (cfg : Config) (now : Nat) (s : State) (q : Query)
    (sendOk : Bool) : Outcome :=
  match resolveSelection (s.userSearchResults q.fromId) (parseIndex q.data) with
  | none => ⟨s, callbackPrelude q ++ [.sendMessage q.chatId .notFoundOrExpired], none⟩
  | some file => chargeAndDeliver env cfg now s q file sendOk

/-- `filesCollection.deleteOne({ file_id: fileId })`: the collection without the first
document with that `file_id`, and `deletedCount`. -/
def deleteOne (files : List FileRecord) (fileId : Str) : List FileRecord × Nat :=
  if files.any (fun r => r.file_id == some fileId) then
    (files.eraseP (fun r => r.file_id == some fileId), 1)
  else (files, 0)

/-- Body of `bot.onText(/\/delete (.+)/, ...)`; `arg` is the capture `match[1]`. -/
def onDelete (cfg : Config) (s : State) (chatId : Int) (fromId : Nat) (arg : Str) : Outcome :=
  let fileId := trim arg
  if !includes cfg.ADMIN_IDS (idToString fromId) then
    ⟨s, [.sendMessage chatId .notAllowedToDelete], none⟩
  else
    let result := deleteOne s.files fileId
    if result.2 > 0 then
      ⟨⟨result.1, s.limits, s.userSearchResults, s.timers⟩,
        [.sendMessage chatId (.deleted fileId)], none⟩
    else
      ⟨⟨result.1, s.limits, s.userSearchResults, s.timers⟩,
        [.sendMessage chatId .noFileWithId], none⟩

/-! ## Events, the clock and timers -/

/-- The events the handlers above are registered for. -/
inductive Event where
  | message (msg : Msg)
  | callbackQuery (q : Query) (sendOk : Bool)
  | deleteCommand (chatId : Int) (fromId : Nat) (arg : Str)

/-- An event with the clock reading at which its handler runs. -/
structure TimedEvent where
  time : Nat
  event : Event

/-- Runs the callbacks of the timers due at `now`, in the order they were scheduled: each
deletes the entry of its user. -/
def fireTimers (now : Nat) (s : State) : State :=
  ⟨s.files, s.limits,
    (s.timers.filter (fun t => t.due ≤ now)).foldl
      (fun m t => Function.update m t.userId none) s.userSearchResults,
    s.timers.filter (fun t => now < t.due)⟩

/-- The handler of an event, at the clock reading `now`. -/
def dispatch (env : Env) (cfg : Config) (now : Nat) (s : State) : Event → Outcome
  | .message msg => onMessage env cfg now s msg
  | .callbackQuery q sendOk => onCallbackQuery env cfg now s q sendOk
  | .deleteCommand chatId fromId arg => onDelete cfg s chatId fromId arg

/-- One event handled at its time: the timers due fire first, then the handler runs. -/
def handle (env : Env) (cfg : Config) (s : State) (te : TimedEvent) : Outcome :=
  dispatch env cfg te.time (fireTimers te.time s) te.event

/-- The state after a sequence of events handled one at a time. A handler that throws leaves
the state it had reached. -/
def run (env : Env) (cfg : Config) : State → List TimedEvent → State
  | s, [] => s
  | s, te :: rest => run env cfg (handle env cfg s te).state rest

/-- The state of a freshly started process: the collections as found in the database, an
empty selection map and no timer. -/
def initState (files : List FileRecord) (limits : List LimitDoc) : State :=
  ⟨files, limits, fun _ => none, []⟩

/-- The calls that hand a file to the delivery transport. -/
def Action.isDelivery : Action → Bool
  | .sendDocument _ _ _ => true
  | .sendVideo _ _ _ => true
  | .sendAudio _ _ _ => true
  | .sendPhoto _ _ _ => true
  | _ => false

/-- The event is a selection by user `u`. -/
def Event.isSelectionBy (u : Nat) : Event → Bool
  | .callbackQuery q _ => q.fromId == u
  | _ => false

/-- The event is a message from user `u`. -/
def Event.isMessageFrom (u : Nat) : Event → Bool
  | .message msg => msg.fromId == u
  | _ => false

/-- The number of selections by user `u`, in a sequence of events handled one at a time from
state `s`, whose handler reached one of the four delivery calls. -/
def deliveriesTo (env : Env) (cfg : Config) (u : Nat) : State → List TimedEvent → Nat
  | _, [] => 0
  | s, te :: rest =>
    (if te.event.isSelectionBy u && (handle env cfg s te).actions.any Action.isDelivery
      then 1 else 0) + deliveriesTo env cfg u (handle env cfg s te).state rest

/-! ## Reference definitions for the statements -/

/-- `String.prototype.toLowerCase` restricted to the letters `A` to `Z`. -/
def asciiLower (s : Str) : Str := s.map Char.toLower

/-- An environment for concrete runs, with ASCII lower-casing. -/
def asciiEnv : Env := ⟨asciiLower, true⟩

/-- What the statements need of `toLowerCase`: it maps exactly the empty string to the empty
string and produces no white space or comma from a string that has none. -/
def LowerCaseOk (env : Env) : Prop :=
  (∀ s, env.toLowerCase s = [] ↔ s = []) ∧
    ∀ s, (∀ c ∈ s, isSep c = false) → ∀ c ∈ env.toLowerCase s, isSep c = false

/-- The string `run` is a maximal run of non-separator characters of `s`: a non-empty block of
characters none of which is white space or a comma, bounded on each side by a separator or by
the end of `s`. -/
def IsMaximalRun (s run : Str) : Prop :=
  run ≠ [] ∧ (∀ c ∈ run, isSep c = false) ∧
    ∃ before after, s = before ++ run ++ after ∧
      (∀ c, before.getLast? = some c → isSep c = true) ∧
      (∀ c, after.head? = some c → isSep c = true)

/-- The media kinds of the data model. -/
def knownTypes : List Str :=
  ["document".toList, "video".toList, "audio".toList, "photo".toList]

/-- A message as Telegram sends it: an attachment excludes a text, and a photo has at least
one size. -/
def Msg.WellFormed (msg : Msg) : Prop :=
  (hasMedia msg = true → msg.text = none) ∧ msg.photo ≠ some []

/-- The rest `post` of a string ends a run: it is empty or starts with a separator. -/
def EndsRun (post : Str) : Prop := ∀ c, post.head? = some c → isSep c = true

/-- The string `x` is a piece read by `splitSepGo` from `s` with `acc` pending: either the
pending piece extended by the first run of `s`, or a later run of `s` that follows a
separator. -/
def PieceOf (acc s x : Str) : Prop :=
  (∃ r post, s = r ++ post ∧ x = acc.reverse ++ r ∧ (∀ c ∈ r, isSep c = false) ∧ EndsRun post) ∨
  (∃ pre c r post, s = pre ++ c :: (r ++ post) ∧ isSep c = true ∧ x = r ∧
    (∀ c ∈ r, isSep c = false) ∧ EndsRun post)

/-- Every entry of the selection map has the timer scheduled with it still pending. -/
def CacheInv (s : State) : Prop :=
  ∀ u e, s.userSearchResults u = some e → (⟨e.storedAt + TTL, u⟩ : Timer) ∈ s.timers

/-- Every stored record and every cached record has one of the four media kinds. -/
def KnownTypes (s : State) : Prop :=
  (∀ r ∈ s.files, r.type ∈ knownTypes) ∧
    ∀ u e, s.userSearchResults u = some e → ∀ r ∈ e.results, r.type ∈ knownTypes

/-! ## Concrete data for the scenarios -/

/-- A stored record tagged `avatar`. -/
def recAvatar : FileRecord :=
  ⟨some "F1".toList, "a.mkv".toList, ["avatar".toList], [], "video".toList, 1, 0⟩

/-- A stored record tagged `avatar` and `movie`. -/
def recAvatarMovie : FileRecord :=
  ⟨some "F2".toList, "b.pdf".toList, ["avatar".toList, "movie".toList], [], "document".toList, 1, 0⟩

/-- A stored record tagged `war`. -/
def recWar : FileRecord :=
  ⟨some "F3".toList, "war.mkv".toList, ["war".toList], [], "video".toList, 1, 0⟩

/-- A text message from user `u` in chat 5. -/
def textMsg (u : Nat) (t : String) : Msg := ⟨5, u, some t.toList, none, none, none, none, none⟩

/-- A message from user `u` in chat 5 with neither text nor attachment (a sticker). -/
def stickerMsg (u : Nat) : Msg := ⟨5, u, none, none, none, none, none, none⟩

/-- A document with file id `fid` sent by user `u` in chat 5 with caption `c`. -/
def docMsg (u : Nat) (fid c : String) : Msg :=
  ⟨5, u, none, some c.toList, some ⟨fid.toList, none⟩, none, none, none⟩

/-- A selection by user `u` in chat 5 with callback data `d`. -/
def selection (u : Nat) (d : String) : Query := ⟨"q".toList, 5, u, some d.toList⟩

/-- A configuration with administrator 12345, daily limit 2 and pages of 10 results. -/
def cfgTwo : Config := ⟨"12345".toList, 2, 10⟩

end Bot

namespace Bot

/-! ## Strings: splitting and trimming -/

theorem splitSepGo_noSep (s : Str) : ∀ (b : Bool) (acc : Str),
    (∀ c ∈ acc, isSep c = false) → ∀ x ∈ splitSepGo b acc s, ∀ c ∈ x, isSep c = false := by
  induction s with
  | nil =>
    intro b acc hacc x hx c hc
    simp only [splitSepGo, List.mem_singleton] at hx
    subst hx
    exact hacc c (by simpa using hc)
  | cons a cs ih =>
    intro b acc hacc x hx c hc
    by_cases ha : isSep a = true
    · cases b
      · simp only [splitSepGo, ha, if_true, Bool.false_eq_true, if_false, List.mem_cons] at hx
        rcases hx with rfl | hx
        · exact hacc c (by simpa using hc)
        · exact ih true [] (by simp) x hx c hc
      · simp only [splitSepGo, ha, if_true] at hx
        exact ih true [] (by simp) x hx c hc
    · simp only [splitSepGo, ha, Bool.false_eq_true, if_false] at hx
      refine ih false (a :: acc) ?_ x hx c hc
      intro d hd
      rcases List.mem_cons.1 hd with rfl | hd
      · simpa using ha
      · exact hacc d hd

theorem pieceOf_nil (acc x : Str) : PieceOf acc [] x ↔ x = acc.reverse := by
  constructor
  · rintro (⟨r, post, h, hx, -, -⟩ | ⟨pre, c, r, post, h, -⟩)
    · have hr : r = [] := (List.append_eq_nil.1 h.symm).1
      simp [hx, hr]
    · exact absurd h.symm (by simp)
  · intro h
    exact Or.inl ⟨[], [], rfl, by simp [h], by simp, by intro c hc; simp at hc⟩

theorem pieceOf_cons_sep (acc : Str) (a : Char) (cs x : Str) (ha : isSep a = true) :
    PieceOf acc (a :: cs) x ↔ x = acc.reverse ∨ PieceOf [] cs x := by
  constructor
  · rintro (⟨r, post, h, hx, hr, -⟩ | ⟨pre, c, r, post, h, hc, hx, hr, hp⟩)
    · cases r with
      | nil => left; simp [hx]
      | cons b r =>
        simp only [List.cons_append, List.cons.injEq] at h
        have := hr b (by simp)
        rw [← h.1, ha] at this
        exact absurd this (by simp)
    · right
      cases pre with
      | nil =>
        simp only [List.nil_append, List.cons.injEq] at h
        exact Or.inl ⟨r, post, h.2, by simp [hx], hr, hp⟩
      | cons b pre =>
        simp only [List.cons_append, List.cons.injEq] at h
        exact Or.inr ⟨pre, c, r, post, h.2, hc, hx, hr, hp⟩
  · rintro (h | ⟨r, post, h, hx, hr, hp⟩ | ⟨pre, c, r, post, h, hc, hx, hr, hp⟩)
    · exact Or.inl ⟨[], a :: cs, rfl, by simp [h], by simp,
        by intro c hc; simp at hc; rw [← hc]; exact ha⟩
    · exact Or.inr ⟨[], a, r, post, by simp [h], ha, by simpa using hx, hr, hp⟩
    · exact Or.inr ⟨a :: pre, c, r, post, by simp [h], hc, hx, hr, hp⟩

theorem pieceOf_cons_noSep (acc : Str) (a : Char) (cs x : Str) (ha : isSep a = false) :
    PieceOf acc (a :: cs) x ↔ PieceOf (a :: acc) cs x := by
  constructor
  · rintro (⟨r, post, h, hx, hr, hp⟩ | ⟨pre, c, r, post, h, hc, hx, hr, hp⟩)
    · cases r with
      | nil =>
        simp only [List.nil_append] at h
        have := hp a (by simp [← h])
        rw [ha] at this
        exact absurd this (by simp)
      | cons b r =>
        simp only [List.cons_append, List.cons.injEq] at h
        refine Or.inl ⟨r, post, h.2, ?_, fun c hc => hr c (List.mem_cons_of_mem _ hc), hp⟩
        simp [hx, h.1]
    · cases pre with
      | nil =>
        simp only [List.nil_append, List.cons.injEq] at h
        rw [← h.1, ha] at hc
        exact absurd hc (by simp)
      | cons b pre =>
        simp only [List.cons_append, List.cons.injEq] at h
        exact Or.inr ⟨pre, c, r, post, h.2, hc, hx, hr, hp⟩
  · rintro (⟨r, post, h, hx, hr, hp⟩ | ⟨pre, c, r, post, h, hc, hx, hr, hp⟩)
    · refine Or.inl ⟨a :: r, post, by simp [h], by simp [hx], ?_, hp⟩
      intro c hc
      rcases List.mem_cons.1 hc with rfl | hc
      · exact ha
      · exact hr c hc
    · exact Or.inr ⟨a :: pre, c, r, post, by simp [h], hc, hx, hr, hp⟩

theorem mem_splitSepGo (s : Str) : ∀ (b : Bool) (acc : Str), (b = true → acc = []) →
    ∀ x, x ≠ [] → (x ∈ splitSepGo b acc s ↔ PieceOf acc s x) := by
  induction s with
  | nil =>
    intro b acc _ x _
    simp only [splitSepGo, List.mem_singleton, pieceOf_nil]
  | cons a cs ih =>
    intro b acc hb x hx
    by_cases ha : isSep a = true
    · rw [pieceOf_cons_sep acc a cs x ha, ← ih true [] (fun _ => rfl) x hx]
      cases b
      · simp only [splitSepGo, ha, if_true, Bool.false_eq_true, if_false, List.mem_cons]
      · simp only [splitSepGo, ha, if_true]
        have : acc = [] := hb rfl
        subst this
        constructor
        · exact Or.inr
        · rintro (h | h)
          · exact absurd h hx
          · exact h
    · have ha2 : isSep a = false := by simpa using ha
      rw [pieceOf_cons_noSep acc a cs x ha2, ← ih false (a :: acc) (by simp) x hx]
      simp only [splitSepGo, ha, Bool.false_eq_true, if_false]

theorem pieceOf_nil_iff (s x : Str) (hx : x ≠ []) : PieceOf [] s x ↔ IsMaximalRun s x := by
  constructor
  · rintro (⟨r, post, h, hxr, hr, hp⟩ | ⟨pre, c, r, post, h, hc, hxr, hr, hp⟩)
    · have : x = r := by simpa using hxr
      subst this
      exact ⟨hx, hr, [], post, by simp [h], by simp, hp⟩
    · subst hxr
      refine ⟨hx, hr, pre ++ [c], post, by simp [h], ?_, hp⟩
      intro d hd
      simp at hd
      rw [← hd]; exact hc
  · rintro ⟨-, hr, before, after, h, hb, ha⟩
    rcases List.eq_nil_or_concat before with rfl | ⟨pre, c, rfl⟩
    · exact Or.inl ⟨x, after, by simpa using h, by simp, hr, ha⟩
    · refine Or.inr ⟨pre, c, x, after, by simp [h], hb c (by simp), rfl, hr, ha⟩

/-- The non-empty pieces of `split(/[\s,]+/)` are the maximal runs of non-separators. -/
theorem mem_splitSep (s x : Str) (hx : x ≠ []) : x ∈ splitSep s ↔ IsMaximalRun s x := by
  unfold splitSep
  rw [mem_splitSepGo s false [] (by simp) x hx, pieceOf_nil_iff s x hx]

theorem splitSep_noSep (s x : Str) (hx : x ∈ splitSep s) : ∀ c ∈ x, isSep c = false :=
  splitSepGo_noSep s false [] (by simp) x hx

theorem splitSepGo_exists (s : Str) : ∀ (b : Bool) (acc : Str), (b = true → acc = []) →
    (acc ≠ [] ∨ ∃ c ∈ s, isSep c = false) → ∃ x ∈ splitSepGo b acc s, x ≠ [] := by
  induction s with
  | nil =>
    intro b acc _ h
    rcases h with h | ⟨c, hc, -⟩
    · exact ⟨acc.reverse, by simp [splitSepGo], by simpa using h⟩
    · simp at hc
  | cons a cs ih =>
    intro b acc hb h
    by_cases ha : isSep a = true
    · cases b
      · simp only [splitSepGo, ha, if_true, Bool.false_eq_true, if_false]
        rcases h with h | ⟨c, hc, hcs⟩
        · exact ⟨acc.reverse, by simp, by simpa using h⟩
        · rcases List.mem_cons.1 hc with rfl | hc
          · rw [ha] at hcs; exact absurd hcs (by simp)
          · obtain ⟨x, hx, hne⟩ := ih true [] (fun _ => rfl) (Or.inr ⟨c, hc, hcs⟩)
            exact ⟨x, List.mem_cons_of_mem _ hx, hne⟩
      · simp only [splitSepGo, ha, if_true]
        rcases h with h | ⟨c, hc, hcs⟩
        · exact absurd (hb rfl) h
        · rcases List.mem_cons.1 hc with rfl | hc
          · rw [ha] at hcs; exact absurd hcs (by simp)
          · exact ih true [] (fun _ => rfl) (Or.inr ⟨c, hc, hcs⟩)
    · simp only [splitSepGo, ha, Bool.false_eq_true, if_false]
      exact ih false (a :: acc) (by simp) (Or.inl (by simp))

theorem trim_of_noSep (x : Str) (h : ∀ c ∈ x, isSep c = false) : trim x = x := by
  have hw : ∀ c ∈ x, isWhiteSpace c = false := by
    intro c hc
    have := h c hc
    simp only [isSep, Bool.or_eq_false_iff] at this
    exact this.1
  have key : ∀ l : Str, (∀ c ∈ l, isWhiteSpace c = false) → l.dropWhile isWhiteSpace = l := by
    intro l hl
    cases l with
    | nil => rfl
    | cons a l => simp [List.dropWhile, hl a (by simp)]
  unfold trim
  rw [key x hw, key x.reverse (by intro c hc; exact hw c (by simpa using hc)), List.reverse_reverse]

end Bot
namespace Bot

/-! ## Keywords -/

theorem isSep_toLower (c : Char) : isSep c.toLower = isSep c := by
  unfold Char.toLower
  by_cases h : c.toNat ≥ 65 ∧ c.toNat ≤ 90
  · simp only [h, and_self, if_true]
    obtain ⟨n, hn⟩ : ∃ n, c.toNat = n := ⟨_, rfl⟩
    have hc : c = Char.ofNat n := by rw [← hn]; simp
    rw [hn] at h
    obtain ⟨h1, h2⟩ := h
    subst hc
    interval_cases n <;> decide
  · simp only [h, if_false]

theorem lowerCaseOk_asciiEnv : LowerCaseOk asciiEnv := by
  constructor
  · intro s
    simp [asciiEnv, asciiLower]
  · intro s hs c hc
    simp only [asciiEnv, asciiLower, List.mem_map] at hc
    obtain ⟨d, hd, rfl⟩ := hc
    rw [isSep_toLower]
    exact hs d hd

theorem mem_normalizeKeywords (env : Env) (hlow : LowerCaseOk env) (s k : Str) :
    k ∈ normalizeKeywords env s ↔ ∃ run, IsMaximalRun s run ∧ k = env.toLowerCase run := by
  unfold normalizeKeywords
  simp only [List.mem_filter, List.mem_map, Bool.not_eq_true', List.isEmpty_eq_false]
  constructor
  · rintro ⟨⟨tok, htok, rfl⟩, hne⟩
    have htrim : trim tok = tok := trim_of_noSep tok (splitSep_noSep s tok htok)
    rw [htrim] at hne ⊢
    have htne : tok ≠ [] := fun h => hne ((hlow.1 tok).2 h)
    exact ⟨tok, (mem_splitSep s tok htne).1 htok, rfl⟩
  · rintro ⟨run, hrun, rfl⟩
    have hmem : run ∈ splitSep s := (mem_splitSep s run hrun.1).2 hrun
    refine ⟨⟨run, hmem, ?_⟩, ?_⟩
    · rw [trim_of_noSep run hrun.2.1]
    · intro h
      exact hrun.1 ((hlow.1 run).1 h)

theorem normalizeKeywords_good (env : Env) (hlow : LowerCaseOk env) (s k : Str)
    (hk : k ∈ normalizeKeywords env s) : k ≠ [] ∧ ∀ c ∈ k, isSep c = false := by
  obtain ⟨run, hrun, rfl⟩ := (mem_normalizeKeywords env hlow s k).1 hk
  exact ⟨fun h => hrun.1 ((hlow.1 run).1 h), hlow.2 run hrun.2.1⟩

theorem normalizeKeywords_eq_nil (env : Env) (hlow : LowerCaseOk env) (s : Str) :
    normalizeKeywords env s = [] ↔ ∀ c ∈ s, isSep c = true := by
  constructor
  · intro h c hc
    by_contra hsep
    have hsep2 : isSep c = false := by simpa using hsep
    obtain ⟨x, hx, hne⟩ := splitSepGo_exists s false [] (by simp) (Or.inr ⟨c, hc, hsep2⟩)
    have hrun : IsMaximalRun s x := (mem_splitSep s x hne).1 hx
    have : env.toLowerCase x ∈ normalizeKeywords env s :=
      (mem_normalizeKeywords env hlow s _).2 ⟨x, hrun, rfl⟩
    rw [h] at this
    simp at this
  · intro h
    apply List.eq_nil_iff_forall_not_mem.2
    intro k hk
    obtain ⟨run, ⟨hne, hns, before, after, hs, -, -⟩, -⟩ := (mem_normalizeKeywords env hlow s k).1 hk
    obtain ⟨c, hc⟩ := List.exists_mem_of_ne_nil run hne
    have h1 := hns c hc
    have h2 := h c (by rw [hs]; simp [hc])
    rw [h1] at h2
    exact absurd h2 (by simp)

theorem contains_eq_true_iff (l : List Str) (x : Str) : l.contains x = true ↔ x ∈ l := by
  unfold List.contains
  exact List.elem_iff

/-! ## Administrators -/

theorem includes_iff (s sub : Str) : includes s sub = true ↔ sub <:+: s := by
  induction s with
  | nil => simp [includes, List.isEmpty_iff]
  | cons c cs ih =>
    simp only [includes, Bool.or_eq_true, ih, List.infix_cons_iff, List.isPrefixOf_iff_prefix]

theorem splitCommaGo_substring (s : Str) : ∀ (acc x : Str), x ∈ splitCommaGo acc s →
    x <:+: acc.reverse ++ s := by
  induction s with
  | nil =>
    intro acc x hx
    simp only [splitCommaGo, List.mem_singleton] at hx
    subst hx
    simp
  | cons c cs ih =>
    intro acc x hx
    by_cases hc : (c == ',') = true
    · simp only [splitCommaGo, hc, if_true, List.mem_cons] at hx
      rcases hx with rfl | hx
      · exact (List.prefix_append _ _).isInfix
      · have := ih [] x hx
        simp only [List.reverse_nil, List.nil_append] at this
        exact this.trans ((List.suffix_cons c cs).isInfix.trans
          (List.suffix_append _ _).isInfix)
    · simp only [splitCommaGo, hc, Bool.false_eq_true, if_false] at hx
      have := ih (c :: acc) x hx
      simpa using this

theorem trim_substring (x : Str) : trim x <:+: x := by
  unfold trim
  have h1 : x.dropWhile isWhiteSpace <:+ x := List.dropWhile_suffix _
  have h2 : (x.dropWhile isWhiteSpace).reverse.dropWhile isWhiteSpace <:+
      (x.dropWhile isWhiteSpace).reverse := List.dropWhile_suffix _
  have h3 : ((x.dropWhile isWhiteSpace).reverse.dropWhile isWhiteSpace).reverse <+:
      x.dropWhile isWhiteSpace := by
    have := List.reverse_prefix.2 h2
    simpa using this
  exact h3.isInfix.trans h1.isInfix

/-- An entry of `adminIds` occurs in the string `ADMIN_IDS`. -/
theorem includes_of_mem_adminIds (cfg : Config) (x : Str) (h : x ∈ adminIds cfg) :
    includes cfg.ADMIN_IDS x = true := by
  unfold adminIds at h
  obtain ⟨y, hy, rfl⟩ := List.mem_map.1 h
  rw [includes_iff]
  have := splitCommaGo_substring cfg.ADMIN_IDS [] y hy
  simp only [List.reverse_nil, List.nil_append] at this
  exact (trim_substring y).trans this

theorem uploadFileId_ok (msg : Msg) (h : msg.photo ≠ some []) :
    ∃ fileId, uploadFileId msg = .ok fileId := by
  unfold uploadFileId
  simp only
  split
  · exact ⟨_, rfl⟩
  · split
    · rename_i heq
      cases hp : msg.photo with
      | none => rw [hp] at heq; simp at heq
      | some l =>
        rw [hp] at heq
        simp only [Option.map_some', Option.some.injEq] at heq
        have : l = [] := by simpa using heq
        exact absurd (this ▸ hp) h
    · split
      · exact ⟨_, rfl⟩
      · split <;> exact ⟨_, rfl⟩

end Bot

namespace Bot

/-! ## Search and upload -/

/-- C4. Exact-term OR matching: for every file store and query text, a stored record is among
the results of the search flow (before truncation) exactly when one of its keywords equals the
lower-cased form of a maximal run of non-separator characters of the text; the results keep
the order and multiplicity of the store; a text made of white space and commas only returns
no record; and these results are what the message handler reports for a text message that is
not a command, from a user below the daily limit: the no-results message when there are none,
and otherwise their number and the keyboard of the first page. -/
theorem search_exact_term_or (env : Env) (hlow : LowerCaseOk env) (files : List FileRecord)
    (text : Str) :
    (∀ r, r ∈ searchResults env files text ↔
      r ∈ files ∧ ∃ k ∈ r.keywords, ∃ run, IsMaximalRun text run ∧ k = env.toLowerCase run) ∧
    (searchResults env files text).Sublist files ∧
    ((∀ c ∈ text, isSep c = true) → searchResults env files text = []) ∧
    (∀ (cfg : Config) (now : Nat) (s : State) (msg : Msg), s.files = files →
      msg.text = some text → startsWith text ['/'] = false → hasMedia msg = false →
      (checkDailyLimit s.limits msg.fromId (isoDate now) : Int) < cfg.DAILY_LIMIT →
      (onMessage env cfg now s msg).actions =
        if (searchResults env files text).isEmpty then
          [.sendMessage msg.chatId (.searching (some text)),
           .sendMessage msg.chatId .noFilesFound]
        else
          [.sendMessage msg.chatId (.searching (some text)),
           .sendMessage msg.chatId (.found (searchResults env files text).length
             (buttons (slice0 (searchResults env files text) cfg.RESULTS_PER_PAGE)))]) := by
  refine ⟨?_, List.filter_sublist _, ?_, ?_⟩
  · intro r
    unfold searchResults matchesIn
    simp only [List.mem_filter, List.any_eq_true, contains_eq_true_iff,
      mem_normalizeKeywords env hlow]
  · intro h
    unfold searchResults matchesIn
    rw [(normalizeKeywords_eq_nil env hlow text).2 h]
    simp
  · intro cfg now s msg hfiles htext hslash hmedia hcount
    have hge : ¬ ((checkDailyLimit s.limits msg.fromId (isoDate now) : Int) ≥ cfg.DAILY_LIMIT) :=
      not_le.2 hcount
    unfold onMessage
    simp only [htext, hslash, hmedia, hfiles, hge, Option.map_some', Option.getD_some,
      Bool.false_eq_true, if_false, Bool.false_and, Bool.and_false]
    split <;> rfl

/-- C4, scenario: with records tagged `avatar` and `avatar, movie`, the text `avatar` returns
both and `movie` only the second; `ava` and `movies` return none; the empty text, blanks and
commas return none. -/
theorem search_exact_term_or_witness :
    LowerCaseOk asciiEnv ∧
    searchResults asciiEnv [recAvatar, recAvatarMovie] "avatar".toList =
      [recAvatar, recAvatarMovie] ∧
    searchResults asciiEnv [recAvatar, recAvatarMovie] "movie".toList = [recAvatarMovie] ∧
    searchResults asciiEnv [recAvatar, recAvatarMovie] "war, Movie".toList = [recAvatarMovie] ∧
    searchResults asciiEnv [recAvatar, recAvatarMovie] "ava".toList = [] ∧
    searchResults asciiEnv [recAvatar, recAvatarMovie] "movies".toList = [] ∧
    searchResults asciiEnv [recAvatar, recAvatarMovie] "".toList = [] ∧
    searchResults asciiEnv [recAvatar, recAvatarMovie] "   ".toList = [] ∧
    searchResults asciiEnv [recAvatar, recAvatarMovie] ",, ,".toList = [] :=
  ⟨lowerCaseOk_asciiEnv, by decide, by decide, by decide, by decide, by decide, by decide,
    by decide,
    (search_exact_term_or asciiEnv lowerCaseOk_asciiEnv [recAvatar, recAvatarMovie]
      ",, ,".toList).2.2.1 (by decide)⟩

theorem onMessage_upload (env : Env) (cfg : Config) (now : Nat) (s : State) (msg : Msg)
    (hwf : msg.WellFormed) (hmedia : hasMedia msg = true)
    (hadmin : idToString msg.fromId ∈ adminIds cfg) :
    ∃ fileId, onMessage env cfg now s msg =
      if (normalizeKeywords env (msg.caption.getD [])).isEmpty then
        ⟨s, [.sendMessage msg.chatId .usage], none⟩
      else
        ⟨⟨s.files ++ [⟨fileId, uploadFileName msg, normalizeKeywords env (msg.caption.getD []),
            msg.caption.getD [], uploadType msg, msg.fromId, now⟩],
            s.limits, s.userSearchResults, s.timers⟩,
          [.sendMessage msg.chatId
            (.fileSaved fileId (normalizeKeywords env (msg.caption.getD [])))], none⟩ := by
  obtain ⟨fileId, hf⟩ := uploadFileId_ok msg hwf.2
  refine ⟨fileId, ?_⟩
  have htext : msg.text = none := hwf.1 hmedia
  have hinc : includes cfg.ADMIN_IDS (idToString msg.fromId) = true :=
    includes_of_mem_adminIds cfg _ hadmin
  have hcont : (adminIds cfg).contains (idToString msg.fromId) = true :=
    (contains_eq_true_iff _ _).2 hadmin
  unfold onMessage
  simp only [htext, hmedia, hinc, hcont, hf, Option.map_none', Option.getD_none,
    Bool.false_eq_true, if_false, Bool.not_true, Bool.and_false, Bool.and_self, if_true]

/-- C5. Upload keyword normalisation and rejection: for an administrator's message with an
attachment and caption `c` (the empty string when there is none), the handler throws nothing;
it answers with the usage message and leaves the file collection unchanged exactly when every
character of `c` is white space or a comma; otherwise it appends exactly one record, echoed
in the reply, whose keywords are exactly the lower-cased maximal runs of non-separator
characters of `c`, so the keyword list is not empty and every keyword is non-empty and holds
no white space or comma. -/
theorem upload_keyword_normalisation (env : Env) (hlow : LowerCaseOk env) (cfg : Config)
    (now : Nat) (s : State) (msg : Msg) (hwf : msg.WellFormed) (hmedia : hasMedia msg = true)
    (hadmin : idToString msg.fromId ∈ adminIds cfg) :
    (onMessage env cfg now s msg).thrown = none ∧
    (((onMessage env cfg now s msg).state.files = s.files ∧
        (onMessage env cfg now s msg).actions = [.sendMessage msg.chatId .usage]) ↔
      ∀ ch ∈ msg.caption.getD [], isSep ch = true) ∧
    (¬ (∀ ch ∈ msg.caption.getD [], isSep ch = true) →
      ∃ doc, (onMessage env cfg now s msg).state.files = s.files ++ [doc] ∧
        (onMessage env cfg now s msg).actions =
          [.sendMessage msg.chatId (.fileSaved doc.file_id doc.keywords)] ∧
        (∀ k, k ∈ doc.keywords ↔
          ∃ run, IsMaximalRun (msg.caption.getD []) run ∧ k = env.toLowerCase run) ∧
        doc.keywords ≠ [] ∧ ∀ k ∈ doc.keywords, k ≠ [] ∧ ∀ ch ∈ k, isSep ch = false) := by
  obtain ⟨fileId, h⟩ := onMessage_upload env cfg now s msg hwf hmedia hadmin
  have hnil := normalizeKeywords_eq_nil env hlow (msg.caption.getD [])
  by_cases hall : ∀ ch ∈ msg.caption.getD [], isSep ch = true
  · have hk : normalizeKeywords env (msg.caption.getD []) = [] := hnil.2 hall
    rw [h, hk]
    simp only [List.isEmpty_nil, if_true, true_and]
    exact ⟨⟨fun _ => hall, fun _ => trivial⟩, fun hn => absurd hall hn⟩
  · have hk : normalizeKeywords env (msg.caption.getD []) ≠ [] := fun hk => hall (hnil.1 hk)
    have hk2 : (normalizeKeywords env (msg.caption.getD [])).isEmpty = false := by
      simpa [List.isEmpty_iff] using hk
    rw [h, hk2]
    simp only [Bool.false_eq_true, if_false, true_and]
    refine ⟨⟨fun hh => ?_, fun hh => absurd hh hall⟩, fun _ => ⟨_, rfl, rfl, ?_, hk, ?_⟩⟩
    · have := congrArg List.length hh.1
      simp at this
    · intro k
      exact mem_normalizeKeywords env hlow _ k
    · intro k hkm
      exact normalizeKeywords_good env hlow _ k hkm

/-- C5, scenario: administrator 12345 uploads a document; the caption `war, Action ` stores the
keywords `war` and `action`, and the empty caption is rejected with the collection unchanged. -/
theorem upload_keyword_normalisation_witness :
    LowerCaseOk asciiEnv ∧ (docMsg 12345 "F" "").WellFormed ∧
    hasMedia (docMsg 12345 "F" "") = true ∧
    idToString (docMsg 12345 "F" "").fromId ∈ adminIds cfgTwo ∧
    (onMessage asciiEnv cfgTwo 0 (initState [] []) (docMsg 12345 "F" "war, Action ")).state.files
      = [⟨some "F".toList, "file".toList, ["war".toList, "action".toList],
          "war, Action ".toList, "document".toList, 12345, 0⟩] ∧
    (onMessage asciiEnv cfgTwo 0 (initState [recWar] []) (docMsg 12345 "F" "")).thrown = none ∧
    (((onMessage asciiEnv cfgTwo 0 (initState [recWar] []) (docMsg 12345 "F" "")).state.files
        = (initState [recWar] []).files ∧
      (onMessage asciiEnv cfgTwo 0 (initState [recWar] []) (docMsg 12345 "F" "")).actions
        = [.sendMessage (docMsg 12345 "F" "").chatId .usage]) ↔
      ∀ ch ∈ (docMsg 12345 "F" "").caption.getD [], isSep ch = true) :=
  ⟨lowerCaseOk_asciiEnv, ⟨fun _ => rfl, by decide⟩, by decide, by decide, by decide,
    (upload_keyword_normalisation asciiEnv lowerCaseOk_asciiEnv cfgTwo 0 (initState [recWar] [])
      (docMsg 12345 "F" "") ⟨fun _ => rfl, by decide⟩ (by decide) (by decide)).1,
    (upload_keyword_normalisation asciiEnv lowerCaseOk_asciiEnv cfgTwo 0 (initState [recWar] [])
      (docMsg 12345 "F" "") ⟨fun _ => rfl, by decide⟩ (by decide) (by decide)).2.1⟩

end Bot

namespace Bot

/-! ## The daily counter -/

theorem find_incCount (u d : Nat) (l : List LimitDoc) :
    ∃ doc, (incCount u d l).find? (LimitDoc.isFor u d) = some doc ∧
      doc.count = checkDailyLimit l u d + 1 := by
  induction l with
  | nil =>
    refine ⟨⟨u, d, 1⟩, ?_, ?_⟩
    · simp [incCount, LimitDoc.isFor]
    · simp [checkDailyLimit]
  | cons x xs ih =>
    by_cases hx : x.isFor u d = true
    · refine ⟨⟨x.userId, x.date, x.count + 1⟩, ?_, ?_⟩
      · have hx2 : LimitDoc.isFor u d ⟨x.userId, x.date, x.count + 1⟩ = true := hx
        simp only [incCount, hx, if_true, List.find?_cons, hx2]
      · simp only [checkDailyLimit, List.find?_cons, hx]
    · obtain ⟨doc, h1, h2⟩ := ih
      have hx2 : x.isFor u d = false := by simpa using hx
      refine ⟨doc, ?_, ?_⟩
      · simp only [incCount, hx2, Bool.false_eq_true, if_false, List.find?_cons, h1]
      · simp only [checkDailyLimit, List.find?_cons, hx2] at h2 ⊢
        exact h2

theorem checkDailyLimit_incCount_same (u d : Nat) (l : List LimitDoc) :
    checkDailyLimit (incCount u d l) u d = checkDailyLimit l u d + 1 := by
  obtain ⟨doc, h1, h2⟩ := find_incCount u d l
  rw [← h2]
  simp only [checkDailyLimit, h1]

theorem checkDailyLimit_incCount_other (u d v e : Nat) (l : List LimitDoc)
    (hne : ¬ (v = u ∧ e = d)) :
    checkDailyLimit (incCount v e l) u d = checkDailyLimit l u d := by
  induction l with
  | nil =>
    have : LimitDoc.isFor u d ⟨v, e, 1⟩ = false := by
      simp only [LimitDoc.isFor, Bool.and_eq_false_iff, beq_eq_false_iff_ne, ne_eq]
      by_cases h : v = u
      · right; exact fun h2 => hne ⟨h, h2⟩
      · left; exact h
    simp [incCount, checkDailyLimit, List.find?_cons, this]
  | cons x xs ih =>
    by_cases hx : x.isFor v e = true
    · have hxu : x.isFor u d = false := by
        simp only [LimitDoc.isFor, Bool.and_eq_true, beq_iff_eq] at hx
        simp only [LimitDoc.isFor, Bool.and_eq_false_iff, beq_eq_false_iff_ne, ne_eq]
        by_cases h : x.userId = u
        · right; exact fun h2 => hne ⟨hx.1 ▸ h, hx.2 ▸ h2⟩
        · left; exact h
      have hxu2 : LimitDoc.isFor u d ⟨x.userId, x.date, x.count + 1⟩ = false := hxu
      simp only [incCount, hx, if_true, checkDailyLimit, List.find?_cons, hxu, hxu2]
    · have hx2 : x.isFor v e = false := by simpa using hx
      simp only [incCount, hx2, Bool.false_eq_true, if_false]
      by_cases hxu : x.isFor u d = true
      · simp only [checkDailyLimit, List.find?_cons, hxu]
      · have hxu2 : x.isFor u d = false := by simpa using hxu
        simp only [checkDailyLimit, List.find?_cons, hxu2] at ih ⊢
        exact ih

theorem checkDailyLimit_incCount_le (u d v e : Nat) (l : List LimitDoc) :
    checkDailyLimit l u d ≤ checkDailyLimit (incCount v e l) u d := by
  by_cases h : v = u ∧ e = d
  · obtain ⟨rfl, rfl⟩ := h
    rw [checkDailyLimit_incCount_same]
    exact Nat.le_succ _
  · rw [checkDailyLimit_incCount_other u d v e l h]

/-- The increment always succeeds and returns the count after the update, whichever way the
driver reports the document. -/
theorem incrementUserLimit_eq (env : Env) (l : List LimitDoc) (u d : Nat) :
    incrementUserLimit env l u d = .ok (incCount u d l, checkDailyLimit l u d + 1) := by
  obtain ⟨doc, h1, h2⟩ := find_incCount u d l
  unfold incrementUserLimit
  cases env.resultHasValue <;> simp [h1, h2]

theorem checkDailyLimit_of_fresh (l : List LimitDoc) (u d : Nat)
    (h : ∀ x ∈ l, LimitDoc.isFor u d x = false) : checkDailyLimit l u d = 0 := by
  unfold checkDailyLimit
  have : l.find? (LimitDoc.isFor u d) = none := by
    rw [List.find?_eq_none]
    intro x hx
    simp [h x hx]
  rw [this]

/-! ## The selection handler -/

theorem any_isDelivery_prelude (q : Query) :
    (callbackPrelude q).any Action.isDelivery = false := by
  unfold callbackPrelude
  split <;> simp [Action.isDelivery]

theorem any_isDelivery_deliver (chatId : Int) (file : FileRecord) (sendOk : Bool) :
    (deliver chatId file sendOk).any Action.isDelivery = decide (file.type ∈ knownTypes) := by
  unfold deliver knownTypes
  by_cases h1 : file.type = "document".toList
  · simp [h1, Action.isDelivery]
  · by_cases h2 : file.type = "video".toList
    · simp [h2, Action.isDelivery]
    · by_cases h3 : file.type = "audio".toList
      · simp [h3, Action.isDelivery]
      · by_cases h4 : file.type = "photo".toList
        · simp [h4, Action.isDelivery]
        · simp only [h1, h2, h3, h4, if_false, List.any_cons, List.any_nil, Action.isDelivery,
            Bool.or_false, List.mem_cons, List.mem_singleton, List.not_mem_nil, or_false,
            or_self, decide_False]

theorem chargeAndDeliver_eq (env : Env) (cfg : Config) (now : Nat) (s : State) (q : Query)
    (file : FileRecord) (sendOk : Bool) :
    chargeAndDeliver env cfg now s q file sendOk =
      if ((checkDailyLimit s.limits q.fromId (isoDate now) + 1 : Nat) : Int) > cfg.DAILY_LIMIT then
        ⟨⟨s.files, incCount q.fromId (isoDate now) s.limits, s.userSearchResults, s.timers⟩,
          callbackPrelude q ++ [.sendMessage q.chatId .limitReached], none⟩
      else
        ⟨⟨s.files, incCount q.fromId (isoDate now) s.limits, s.userSearchResults, s.timers⟩,
          callbackPrelude q ++ [.sendMessage q.chatId .sendingFile] ++
            deliver q.chatId file sendOk, none⟩ := by
  unfold chargeAndDeliver
  rw [incrementUserLimit_eq]

end Bot

namespace Bot

/-- C2. Charge-then-refuse: when a selection resolves to a cached record of one of the four
media kinds while the user's counter for today is `c` (0 if absent), the handler throws
nothing, the counter afterwards is exactly `c + 1`, a delivery call is made if and only if
`c + 1 ≤ DAILY_LIMIT`, in which case the handler announces the file and runs the delivery
block, and when `c + 1 > DAILY_LIMIT` the handler answers with the limit message and nothing
else after the acknowledgement. -/
theorem charge_then_refuse (env : Env) (cfg : Config) (now : Nat) (s : State) (q : Query)
    (sendOk : Bool) (file : FileRecord)
    (hres : resolveSelection (s.userSearchResults q.fromId) (parseIndex q.data) = some file)
    (htype : file.type ∈ knownTypes) :
    (onCallbackQuery env cfg now s q sendOk).thrown = none ∧
    checkDailyLimit (onCallbackQuery env cfg now s q sendOk).state.limits q.fromId (isoDate now)
      = checkDailyLimit s.limits q.fromId (isoDate now) + 1 ∧
    ((onCallbackQuery env cfg now s q sendOk).actions.any Action.isDelivery = true ↔
      ((checkDailyLimit s.limits q.fromId (isoDate now) + 1 : Nat) : Int) ≤ cfg.DAILY_LIMIT) ∧
    (((checkDailyLimit s.limits q.fromId (isoDate now) + 1 : Nat) : Int) ≤ cfg.DAILY_LIMIT →
      (onCallbackQuery env cfg now s q sendOk).actions =
        callbackPrelude q ++ [.sendMessage q.chatId .sendingFile] ++
          deliver q.chatId file sendOk) ∧
    (cfg.DAILY_LIMIT < ((checkDailyLimit s.limits q.fromId (isoDate now) + 1 : Nat) : Int) →
      (onCallbackQuery env cfg now s q sendOk).actions =
        callbackPrelude q ++ [.sendMessage q.chatId .limitReached]) := by
  unfold onCallbackQuery
  simp only [hres]
  rw [chargeAndDeliver_eq]
  by_cases h : ((checkDailyLimit s.limits q.fromId (isoDate now) + 1 : Nat) : Int)
      > cfg.DAILY_LIMIT
  · rw [if_pos h]
    refine ⟨rfl, checkDailyLimit_incCount_same _ _ _, ?_, fun h2 => absurd h (not_lt.2 h2),
      fun _ => rfl⟩
    have hno : (callbackPrelude q ++ [Action.sendMessage q.chatId Reply.limitReached]).any
        Action.isDelivery = false := by
      simp [List.any_append, any_isDelivery_prelude, Action.isDelivery]
    constructor
    · intro h2
      change (callbackPrelude q ++ [Action.sendMessage q.chatId Reply.limitReached]).any
        Action.isDelivery = true at h2
      rw [hno] at h2
      exact absurd h2 (by simp)
    · intro h2
      exact absurd h (not_lt.2 h2)
  · rw [if_neg h]
    refine ⟨rfl, checkDailyLimit_incCount_same _ _ _, ?_, fun _ => rfl, fun h2 => absurd h2 h⟩
    have hyes : (callbackPrelude q ++ [Action.sendMessage q.chatId Reply.sendingFile] ++
        deliver q.chatId file sendOk).any Action.isDelivery = true := by
      simp [List.any_append, any_isDelivery_deliver, htype]
    exact ⟨fun _ => not_lt.1 h, fun _ => hyes⟩

/-- C2, scenario: limit 2; user 7 searches `war` and selects index 0 three times: delivered
with count 1, delivered with count 2, then the limit message with count 3. -/
theorem charge_then_refuse_witness :
    (handle asciiEnv cfgTwo
      (run asciiEnv cfgTwo (initState [recWar] []) [⟨0, .message (textMsg 7 "war")⟩])
      ⟨1000, .callbackQuery (selection 7 "0") true⟩).actions =
      [.answerCallbackQuery "q".toList, .sendMessage 5 .sendingFile,
        .sendVideo 5 (some "F3".toList) "war.mkv".toList] ∧
    (run asciiEnv cfgTwo (initState [recWar] []) [⟨0, .message (textMsg 7 "war")⟩,
      ⟨1000, .callbackQuery (selection 7 "0") true⟩]).limits = [⟨7, 0, 1⟩] ∧
    (handle asciiEnv cfgTwo
      (run asciiEnv cfgTwo (initState [recWar] []) [⟨0, .message (textMsg 7 "war")⟩,
        ⟨1000, .callbackQuery (selection 7 "0") true⟩])
      ⟨2000, .callbackQuery (selection 7 "0") true⟩).actions =
      [.answerCallbackQuery "q".toList, .sendMessage 5 .sendingFile,
        .sendVideo 5 (some "F3".toList) "war.mkv".toList] ∧
    (run asciiEnv cfgTwo (initState [recWar] []) [⟨0, .message (textMsg 7 "war")⟩,
      ⟨1000, .callbackQuery (selection 7 "0") true⟩,
      ⟨2000, .callbackQuery (selection 7 "0") true⟩]).limits = [⟨7, 0, 2⟩] ∧
    (run asciiEnv cfgTwo (initState [recWar] []) [⟨0, .message (textMsg 7 "war")⟩,
      ⟨1000, .callbackQuery (selection 7 "0") true⟩,
      ⟨2000, .callbackQuery (selection 7 "0") true⟩,
      ⟨3000, .callbackQuery (selection 7 "0") true⟩]).limits = [⟨7, 0, 3⟩] ∧
    (onCallbackQuery asciiEnv cfgTwo 3000
      ⟨[recWar], [⟨7, 0, 2⟩], fun u => if u = 7 then some ⟨[recWar], 0⟩ else none, []⟩
      (selection 7 "0") true).actions =
      callbackPrelude (selection 7 "0") ++ [.sendMessage (selection 7 "0").chatId .limitReached] :=
  ⟨by decide, by decide, by decide, by decide, by decide,
    (charge_then_refuse asciiEnv cfgTwo 3000
      ⟨[recWar], [⟨7, 0, 2⟩], fun u => if u = 7 then some ⟨[recWar], 0⟩ else none, []⟩
      (selection 7 "0") true recWar (by decide) (by decide)).2.2.2.2 (by decide)⟩

/-! ## The daily bound -/

theorem onMessage_limits (env : Env) (cfg : Config) (now : Nat) (s : State) (msg : Msg) :
    (onMessage env cfg now s msg).state.limits = s.limits := by
  unfold onMessage
  simp only
  repeat' split
  all_goals rfl

theorem onMessage_noDelivery (env : Env) (cfg : Config) (now : Nat) (s : State) (msg : Msg) :
    (onMessage env cfg now s msg).actions.any Action.isDelivery = false := by
  unfold onMessage
  simp only
  repeat' split
  all_goals rfl

theorem onDelete_limits (cfg : Config) (s : State) (chatId : Int) (fromId : Nat) (arg : Str) :
    (onDelete cfg s chatId fromId arg).state.limits = s.limits := by
  unfold onDelete
  simp only
  split
  · rfl
  · split <;> rfl

/-- One event never lowers a counter, and a selection that reaches a delivery call raises the
counter of its user for that day by one, to a value within the limit. -/
theorem handle_count (env : Env) (cfg : Config) (u D : Nat) (s : State) (te : TimedEvent) :
    checkDailyLimit s.limits u D ≤ checkDailyLimit (handle env cfg s te).state.limits u D ∧
    (isoDate te.time = D → te.event.isSelectionBy u = true →
      (handle env cfg s te).actions.any Action.isDelivery = true →
      checkDailyLimit (handle env cfg s te).state.limits u D = checkDailyLimit s.limits u D + 1 ∧
      ((checkDailyLimit s.limits u D + 1 : Nat) : Int) ≤ cfg.DAILY_LIMIT) := by
  obtain ⟨t, ev⟩ := te
  cases ev with
  | message msg =>
    simp only [handle, dispatch, onMessage_limits, Event.isSelectionBy]
    exact ⟨le_refl _, fun _ h => absurd h (by simp)⟩
  | deleteCommand chatId fromId arg =>
    simp only [handle, dispatch, onDelete_limits, Event.isSelectionBy]
    exact ⟨le_refl _, fun _ h => absurd h (by simp)⟩
  | callbackQuery q sendOk =>
    simp only [handle, dispatch, Event.isSelectionBy, beq_iff_eq]
    unfold onCallbackQuery
    cases hres : resolveSelection ((fireTimers t s).userSearchResults q.fromId)
        (parseIndex q.data) with
    | none =>
      simp only [List.any_append, any_isDelivery_prelude, List.any_cons, List.any_nil,
        Action.isDelivery, Bool.or_false, Bool.false_eq_true]
      exact ⟨le_refl _, fun _ _ h => absurd h (by simp)⟩
    | some file =>
      simp only [chargeAndDeliver_eq]
      have hl : (fireTimers t s).limits = s.limits := rfl
      rw [hl]
      split
      · simp only [List.any_append, any_isDelivery_prelude, List.any_cons, List.any_nil,
          Action.isDelivery, Bool.or_false, Bool.false_eq_true]
        exact ⟨checkDailyLimit_incCount_le _ _ _ _ _, fun _ _ h => absurd h (by simp)⟩
      · rename_i hgt
        refine ⟨checkDailyLimit_incCount_le _ _ _ _ _, fun hD hu _ => ?_⟩
        subst hD
        subst hu
        exact ⟨checkDailyLimit_incCount_same _ _ _, not_lt.1 hgt⟩

theorem deliveriesTo_le (env : Env) (cfg : Config) (u D : Nat) (evs : List TimedEvent) :
    ∀ s : State, (∀ te ∈ evs, isoDate te.time = D) →
      (deliveriesTo env cfg u s evs : Int) ≤
        max 0 (cfg.DAILY_LIMIT - (checkDailyLimit s.limits u D : Int)) := by
  induction evs with
  | nil =>
    intro s _
    simp [deliveriesTo]
  | cons te rest ih =>
    intro s hdate
    have hrest := ih (handle env cfg s te).state
      (fun x hx => hdate x (List.mem_cons_of_mem _ hx))
    have hstep := handle_count env cfg u D s te
    have hD := hdate te (List.mem_cons_self _ _)
    unfold deliveriesTo
    by_cases hdel : (te.event.isSelectionBy u &&
        (handle env cfg s te).actions.any Action.isDelivery) = true
    · simp only [hdel, if_true]
      simp only [Bool.and_eq_true] at hdel
      obtain ⟨h1, h2⟩ := hstep.2 hD hdel.1 hdel.2
      rw [h1] at hrest
      push_cast at hrest h2 ⊢
      omega
    · simp only [hdel, Bool.false_eq_true, if_false]
      have := hstep.1
      push_cast at hrest ⊢
      omega

/-- C1. Daily quota bound: for every limit `L ≥ 0`, every user `u` and every sequence of
message, selection and delete events handled one at a time on one calendar date, from a state
with no counter for `u` on that date, the number of selections by `u` that reach a delivery
call (`sendDocument`, `sendVideo`, `sendAudio` or `sendPhoto`) is at most `L`. -/
theorem daily_quota_bound (env : Env) (cfg : Config) (u D : Nat) (s : State)
    (evs : List TimedEvent) (hL : 0 ≤ cfg.DAILY_LIMIT)
    (hdate : ∀ te ∈ evs, isoDate te.time = D)
    (hfresh : ∀ x ∈ s.limits, LimitDoc.isFor u D x = false) :
    (deliveriesTo env cfg u s evs : Int) ≤ cfg.DAILY_LIMIT := by
  have h := deliveriesTo_le env cfg u D evs s hdate
  rw [checkDailyLimit_of_fresh s.limits u D hfresh] at h
  simp only [Nat.cast_zero, sub_zero] at h
  rwa [max_eq_right hL] at h

/-- C1, scenario: limit 2; user 7 searches `war` and selects index 0 four times on day 0; two
selections are delivered. -/
theorem daily_quota_bound_witness :
    (0 : Int) ≤ cfgTwo.DAILY_LIMIT ∧
    deliveriesTo asciiEnv cfgTwo 7 (initState [recWar] [])
      [⟨0, .message (textMsg 7 "war")⟩, ⟨1000, .callbackQuery (selection 7 "0") true⟩,
       ⟨2000, .callbackQuery (selection 7 "0") true⟩,
       ⟨3000, .callbackQuery (selection 7 "0") true⟩,
       ⟨4000, .callbackQuery (selection 7 "0") true⟩] = 2 ∧
    (deliveriesTo asciiEnv cfgTwo 7 (initState [recWar] [])
      [⟨0, .message (textMsg 7 "war")⟩, ⟨1000, .callbackQuery (selection 7 "0") true⟩,
       ⟨2000, .callbackQuery (selection 7 "0") true⟩,
       ⟨3000, .callbackQuery (selection 7 "0") true⟩,
       ⟨4000, .callbackQuery (selection 7 "0") true⟩] : Int) ≤ cfgTwo.DAILY_LIMIT :=
  ⟨by decide, by decide,
    daily_quota_bound asciiEnv cfgTwo 7 0 (initState [recWar] [])
      [⟨0, .message (textMsg 7 "war")⟩, ⟨1000, .callbackQuery (selection 7 "0") true⟩,
       ⟨2000, .callbackQuery (selection 7 "0") true⟩,
       ⟨3000, .callbackQuery (selection 7 "0") true⟩,
       ⟨4000, .callbackQuery (selection 7 "0") true⟩] (by decide) (by decide) (by decide)⟩

end Bot

namespace Bot

/-! ## Callback data of the keyboard -/

theorem digitValue_digitChar (k : Nat) (hk : k < 10) : digitValue 10 (Nat.digitChar k) = some k := by
  interval_cases k <;> rfl

theorem digitValue_some_range (c : Char) (h : (digitValue 10 c).isSome = true) :
    48 ≤ c.toNat ∧ c.toNat ≤ 57 := by
  unfold digitValue at h
  simp only at h
  by_cases h1 : 48 ≤ c.toNat ∧ c.toNat ≤ 57
  · exact h1
  · exfalso
    by_cases h2 : 97 ≤ c.toNat ∧ c.toNat ≤ 122
    · have : ¬ (c.toNat - 87 < 10) := by omega
      simp [h1, h2, this] at h
    · by_cases h3 : 65 ≤ c.toNat ∧ c.toNat ≤ 90
      · have : ¬ (c.toNat - 55 < 10) := by omega
        simp [h1, h2, h3, this] at h
      · simp [h1, h2, h3] at h

theorem digit_not_special (c : Char) (h : (digitValue 10 c).isSome = true) :
    isWhiteSpace c = false ∧ c ≠ '-' ∧ c ≠ '+' ∧ c ≠ 'x' ∧ c ≠ 'X' := by
  obtain ⟨h1, h2⟩ := digitValue_some_range c h
  refine ⟨?_, ?_, ?_, ?_, ?_⟩
  · unfold isWhiteSpace
    simp only [Bool.or_eq_false_iff, beq_eq_false_iff_ne, ne_eq, Bool.and_eq_false_iff,
      decide_eq_false_iff_not]
    omega
  all_goals
    intro hc
    subst hc
    revert h1 h2
    decide

theorem toDigitsCore_digits (fuel : Nat) : ∀ (n : Nat) (ds : Str),
    (∀ c ∈ ds, (digitValue 10 c).isSome = true) →
    ∀ c ∈ Nat.toDigitsCore 10 fuel n ds, (digitValue 10 c).isSome = true := by
  induction fuel with
  | zero => intro n ds h c hc; exact h c (by simpa [Nat.toDigitsCore] using hc)
  | succ fuel ih =>
    intro n ds h c hc
    have hd : (digitValue 10 (Nat.digitChar (n % 10))).isSome = true := by
      rw [digitValue_digitChar _ (Nat.mod_lt _ (by decide))]; rfl
    have h2 : ∀ c ∈ Nat.digitChar (n % 10) :: ds, (digitValue 10 c).isSome = true := by
      intro c hc
      rcases List.mem_cons.1 hc with rfl | hc
      · exact hd
      · exact h c hc
    simp only [Nat.toDigitsCore] at hc
    split at hc
    · exact h2 c hc
    · exact ih _ _ h2 c hc

theorem takeDigits_toDigitsCore (fuel : Nat) : ∀ (n : Nat) (ds : Str), n < fuel →
    ∃ pre : List Nat, takeDigits 10 (Nat.toDigitsCore 10 fuel n ds) = pre ++ takeDigits 10 ds ∧
      pre ≠ [] ∧ pre.foldl (fun a x => a * 10 + x) 0 = n := by
  induction fuel with
  | zero => intro n ds h; omega
  | succ fuel ih =>
    intro n ds h
    have hd : digitValue 10 (Nat.digitChar (n % 10)) = some (n % 10) :=
      digitValue_digitChar _ (Nat.mod_lt _ (by decide))
    simp only [Nat.toDigitsCore]
    split
    · rename_i h0
      refine ⟨[n % 10], ?_, by simp, ?_⟩
      · simp [takeDigits, hd]
      · simp only [List.foldl_cons, List.foldl_nil]
        omega
    · rename_i h0
      obtain ⟨pre, h1, _, h3⟩ := ih (n / 10) (Nat.digitChar (n % 10) :: ds) (by omega)
      refine ⟨pre ++ [n % 10], ?_, by simp, ?_⟩
      · rw [h1]
        simp [takeDigits, hd]
      · rw [List.foldl_append, h3]
        simp only [List.foldl_cons, List.foldl_nil]
        omega

theorem parseInt_idToString (n : Nat) : parseInt (idToString n) = some (n : Int) := by
  obtain ⟨pre, h1, h2, h3⟩ := takeDigits_toDigitsCore (n + 1) n [] (Nat.lt_succ_self n)
  have hdig := toDigitsCore_digits (n + 1) n [] (by simp)
  simp only [takeDigits, List.append_nil] at h1
  unfold idToString Nat.toDigits
  cases hs : Nat.toDigitsCore 10 (n + 1) n [] with
  | nil =>
    rw [hs] at h1
    have : pre = [] := by simpa [takeDigits] using h1.symm
    exact absurd this h2
  | cons c rest =>
    rw [hs] at h1 hdig
    obtain ⟨hws, hm, hp, -, -⟩ := digit_not_special c (hdig c (by simp))
    have hx : ∀ r, rest ≠ 'x' :: r ∧ rest ≠ 'X' :: r := by
      intro r
      constructor
      · intro hr
        exact (digit_not_special 'x' (hdig 'x' (by simp [hr]))).2.2.2.1 rfl
      · intro hr
        exact (digit_not_special 'X' (hdig 'X' (by simp [hr]))).2.2.2.2 rfl
    have hdrop : (c :: rest).dropWhile isWhiteSpace = c :: rest := by
      simp [List.dropWhile, hws]
    have hsign : stripSign (c :: rest) = (false, c :: rest) := by
      unfold stripSign
      split
      · rename_i heq; exact absurd (List.cons.inj heq).1 hm
      · rename_i heq; exact absurd (List.cons.inj heq).1 hp
      · rfl
    have hradix : stripRadix (c :: rest) = (10, c :: rest) := by
      unfold stripRadix
      split
      · rename_i heq; exact absurd (List.cons.inj heq).2 (hx _).1
      · rename_i heq; exact absurd (List.cons.inj heq).2 (hx _).2
      · rfl
    unfold parseInt
    simp only [hdrop, hsign, hradix, h1]
    cases pre with
    | nil => exact absurd rfl h2
    | cons d ds =>
      simp only [Bool.false_eq_true, if_false, h3]
theorem buttonsGo_get (l : List FileRecord) : ∀ (k i : Nat),
    (buttonsGo k l).get? i = (l.get? i).map (fun f => (f.file_name, idToString (k + i))) := by
  induction l with
  | nil => intro k i; simp [buttonsGo]
  | cons f fs ih =>
    intro k i
    cases i with
    | zero => simp [buttonsGo]
    | succ i =>
      simp only [buttonsGo, List.get?_cons_succ, ih]
      have : k + 1 + i = k + (i + 1) := by omega
      rw [this]

/-- The button at position `i` of the keyboard carries the decimal string of `i`. -/
theorem buttons_get (l : List FileRecord) (i : Nat) :
    (buttons l).get? i = (l.get? i).map (fun f => (f.file_name, idToString i)) := by
  unfold buttons
  rw [buttonsGo_get]
  simp

/-! ## The selection map -/

/-- C3. Selection cache put/get: when the map holds the entry with result list `R` for the
user (as left by `userSearchResults.set(U, R)`), a selection whose callback data parses to an
index `i` with `0 ≤ i < len(R)` resolves to `R[i]` and goes on to charge and deliver that
record; a selection whose data does not parse to a number, or parses to a negative index or to
an index `≥ len(R)`, is answered with the not-found message and changes nothing; and the
data carried by the button at position `i` of the keyboard built for `R` resolves to `R[i]`. -/
theorem selection_put_get (env : Env) (cfg : Config) (now : Nat) (s : State) (q : Query)
    (sendOk : Bool) (e : CacheEntry) (hput : s.userSearchResults q.fromId = some e) :
    (∀ i : Nat, parseIndex q.data = some (i : Int) → i < e.results.length →
      ∃ f, e.results.get? i = some f ∧
        resolveSelection (s.userSearchResults q.fromId) (parseIndex q.data) = some f ∧
        onCallbackQuery env cfg now s q sendOk = chargeAndDeliver env cfg now s q f sendOk) ∧
    (parseIndex q.data = none →
      onCallbackQuery env cfg now s q sendOk =
        ⟨s, callbackPrelude q ++ [.sendMessage q.chatId .notFoundOrExpired], none⟩) ∧
    (∀ i : Int, parseIndex q.data = some i → i < 0 →
      onCallbackQuery env cfg now s q sendOk =
        ⟨s, callbackPrelude q ++ [.sendMessage q.chatId .notFoundOrExpired], none⟩) ∧
    (∀ i : Int, parseIndex q.data = some i → (e.results.length : Int) ≤ i →
      onCallbackQuery env cfg now s q sendOk =
        ⟨s, callbackPrelude q ++ [.sendMessage q.chatId .notFoundOrExpired], none⟩) ∧
    (∀ (i : Nat) (label d : Str), (buttons e.results).get? i = some (label, d) →
      q.data = some d →
      ∃ f, e.results.get? i = some f ∧
        onCallbackQuery env cfg now s q sendOk = chargeAndDeliver env cfg now s q f sendOk) := by
  have hin : ∀ i : Nat, parseIndex q.data = some (i : Int) → i < e.results.length →
      ∃ f, e.results.get? i = some f ∧
        resolveSelection (s.userSearchResults q.fromId) (parseIndex q.data) = some f ∧
        onCallbackQuery env cfg now s q sendOk = chargeAndDeliver env cfg now s q f sendOk := by
    intro i hi hlt
    obtain ⟨f, hf⟩ : ∃ f, e.results.get? i = some f :=
      ⟨e.results.get ⟨i, hlt⟩, List.get?_eq_get hlt⟩
    have hr : resolveSelection (s.userSearchResults q.fromId) (parseIndex q.data) = some f := by
      rw [hput, hi]
      exact hf
    refine ⟨f, hf, hr, ?_⟩
    unfold onCallbackQuery
    rw [hr]
  refine ⟨hin, ?_, ?_, ?_, ?_⟩
  rotate_left 3
  · intro i label d hb hd
    rw [buttons_get] at hb
    cases hf : e.results.get? i with
    | none => rw [hf] at hb; simp at hb
    | some f =>
      rw [hf] at hb
      simp only [Option.map_some', Option.some.injEq, Prod.mk.injEq] at hb
      have hlt : i < e.results.length := by
        by_contra hge
        rw [List.get?_eq_none.2 (not_lt.1 hge)] at hf
        simp at hf
      have hi : parseIndex q.data = some (i : Int) := by
        rw [hd, ← hb.2]
        exact parseInt_idToString i
      obtain ⟨g, hg, -, hgo⟩ := hin i hi hlt
      rw [hf] at hg
      exact ⟨f, rfl, by rw [Option.some.inj hg]; exact hgo⟩
  · intro hi
    unfold onCallbackQuery
    rw [hput, hi]
    rfl
  · intro i hi hneg
    unfold onCallbackQuery
    rw [hput, hi]
    cases i with
    | ofNat n => exact absurd hneg (by simp)
    | negSucc n => rfl
  · intro i hi hge
    unfold onCallbackQuery
    rw [hput, hi]
    cases i with
    | ofNat n =>
      have hn : e.results.length ≤ n := by
        have : (e.results.length : Int) ≤ (n : Int) := hge
        exact_mod_cast this
      have : elementAt e.results (some (Int.ofNat n)) = none := List.get?_eq_none.2 hn
      simp only [resolveSelection, this]
    | negSucc n => rfl

/-- C3, scenario: user 7 searches `avatar` over two records; the map then holds both records,
the buttons carry `0` and `1`, which resolve to the first and the second record, and the data
`2`, `-1` and `search_avatar` are answered with the not-found message. -/
theorem selection_put_get_witness :
    (onMessage asciiEnv cfgTwo 0 (initState [recAvatar, recAvatarMovie] [])
      (textMsg 7 "avatar")).state.userSearchResults (selection 7 "search_avatar").fromId =
      some ⟨[recAvatar, recAvatarMovie], 0⟩ ∧
    (onMessage asciiEnv cfgTwo 0 (initState [recAvatar, recAvatarMovie] [])
      (textMsg 7 "avatar")).actions =
      [.sendMessage 5 (.searching (some "avatar".toList)),
       .sendMessage 5 (.found 2 [("a.mkv".toList, "0".toList), ("b.pdf".toList, "1".toList)])] ∧
    resolveSelection (some ⟨[recAvatar, recAvatarMovie], 0⟩) (parseIndex (some "0".toList)) =
      some recAvatar ∧
    resolveSelection (some ⟨[recAvatar, recAvatarMovie], 0⟩) (parseIndex (some "1".toList)) =
      some recAvatarMovie ∧
    resolveSelection (some ⟨[recAvatar, recAvatarMovie], 0⟩) (parseIndex (some "2".toList)) =
      none ∧
    resolveSelection (some ⟨[recAvatar, recAvatarMovie], 0⟩) (parseIndex (some "-1".toList)) =
      none ∧
    parseIndex (selection 7 "search_avatar").data = none ∧
    onCallbackQuery asciiEnv cfgTwo 1000
      (onMessage asciiEnv cfgTwo 0 (initState [recAvatar, recAvatarMovie] [])
        (textMsg 7 "avatar")).state (selection 7 "search_avatar") true =
      ⟨(onMessage asciiEnv cfgTwo 0 (initState [recAvatar, recAvatarMovie] [])
        (textMsg 7 "avatar")).state,
        callbackPrelude (selection 7 "search_avatar") ++
          [.sendMessage (selection 7 "search_avatar").chatId .notFoundOrExpired], none⟩ :=
  ⟨by decide, by decide, by decide, by decide, by decide, by decide, by decide,
    (selection_put_get asciiEnv cfgTwo 1000
      (onMessage asciiEnv cfgTwo 0 (initState [recAvatar, recAvatarMovie] [])
        (textMsg 7 "avatar")).state (selection 7 "search_avatar") true
      ⟨[recAvatar, recAvatarMovie], 0⟩ (by decide)).2.1 (by decide)⟩

/-- C7. A trace on which the claim fails: user 7 searches `war` at time 0 and again at
240000 ms; the second search stores its results at 240000. At 330000 ms, 90 s later and well
within five minutes, the timer of the first search has fired and removed the entry, and the
selection of index 0 is answered with the not-found message. -/
theorem stale_timer_removes_fresh_entry :
    (run asciiEnv cfgTwo (initState [recWar] [])
      [⟨0, .message (textMsg 7 "war")⟩,
       ⟨240000, .message (textMsg 7 "war")⟩]).userSearchResults 7 = some ⟨[recWar], 240000⟩ ∧
    240000 ≤ 330000 ∧ 330000 < 240000 + TTL ∧
    elementAt [recWar] (parseIndex (selection 7 "0").data) = some recWar ∧
    (handle asciiEnv cfgTwo
      (run asciiEnv cfgTwo (initState [recWar] [])
        [⟨0, .message (textMsg 7 "war")⟩, ⟨240000, .message (textMsg 7 "war")⟩])
      ⟨330000, .callbackQuery (selection 7 "0") true⟩).actions =
      [.answerCallbackQuery "q".toList, .sendMessage 5 .notFoundOrExpired] := by
  decide

/-- C8. An input on which the claim fails: with `ADMIN_IDS = "12345"` the only administrator
is 12345; user 234 is not in `adminIds`, but `"12345".includes("234")` holds, so the `/delete`
handler runs `deleteOne` and removes the record. -/
theorem delete_by_non_admin :
    adminIds cfgTwo = ["12345".toList] ∧
    idToString 234 ∉ adminIds cfgTwo ∧
    (onDelete cfgTwo (initState [recWar] []) 5 234 "F3".toList).state.files = [] ∧
    (onDelete cfgTwo (initState [recWar] []) 5 234 "F3".toList).actions =
      [.sendMessage 5 (.deleted "F3".toList)] := by
  decide

/-- C10. An input on which the claim fails: a message with neither text nor attachment from a
user below the daily limit; the handler announces a search for `undefined` and then throws a
`TypeError` at `keyword.split`. -/
theorem message_without_text_throws :
    (onMessage asciiEnv cfgTwo 0 (initState [recWar] []) (stickerMsg 7)).thrown =
      some .typeError ∧
    (onMessage asciiEnv cfgTwo 0 (initState [recWar] []) (stickerMsg 7)).actions =
      [.sendMessage 5 (.searching none)] := by
  decide

end Bot

namespace Bot

/-! ## Deletion -/

/-- C9, as stated, fails: administrator 12345 uploads the file `F` twice with the caption
`war`; `/delete F` removes one of the two records, and a search for `war` still returns a
record whose file id is `F`. -/
theorem delete_keeps_duplicate :
    (run asciiEnv cfgTwo (initState [] [])
      [⟨0, .message (docMsg 12345 "F" "war")⟩,
       ⟨1000, .message (docMsg 12345 "F" "war")⟩]).files.length = 2 ∧
    (handle asciiEnv cfgTwo
      (run asciiEnv cfgTwo (initState [] [])
        [⟨0, .message (docMsg 12345 "F" "war")⟩, ⟨1000, .message (docMsg 12345 "F" "war")⟩])
      ⟨2000, .deleteCommand 5 12345 "F".toList⟩).actions =
      [.sendMessage 5 (.deleted "F".toList)] ∧
    ∃ r ∈ searchResults asciiEnv
      (handle asciiEnv cfgTwo
        (run asciiEnv cfgTwo (initState [] [])
          [⟨0, .message (docMsg 12345 "F" "war")⟩, ⟨1000, .message (docMsg 12345 "F" "war")⟩])
        ⟨2000, .deleteCommand 5 12345 "F".toList⟩).state.files "war".toList,
      r.file_id = some "F".toList := by
  decide

theorem any_fileId_iff (files : List FileRecord) (x : Str) :
    files.any (fun r => r.file_id == some x) = true ↔ ∃ r ∈ files, r.file_id = some x := by
  simp only [List.any_eq_true, beq_iff_eq]

/-- C9, amended. For every file collection and every administrator, `/delete x` answers that no
file was found and leaves the collection unchanged when no record has file id `x`; when some
record has file id `x` it confirms the deletion and removes exactly one record, the first with
that id, keeping all others in order; and if none of the records after the removed one has
file id `x`, a subsequent search, for any text, returns no record whose file id is `x`. -/
theorem delete_by_id (env : Env) (cfg : Config) (s : State) (chatId : Int) (u : Nat)
    (arg : Str) (hadmin : idToString u ∈ adminIds cfg) :
    ((∀ r ∈ s.files, r.file_id ≠ some (trim arg)) →
      (onDelete cfg s chatId u arg).state.files = s.files ∧
      (onDelete cfg s chatId u arg).actions = [.sendMessage chatId .noFileWithId]) ∧
    ((∃ r ∈ s.files, r.file_id = some (trim arg)) →
      (onDelete cfg s chatId u arg).actions = [.sendMessage chatId (.deleted (trim arg))] ∧
      ∃ l1 r l2, s.files = l1 ++ r :: l2 ∧ r.file_id = some (trim arg) ∧
        (∀ y ∈ l1, y.file_id ≠ some (trim arg)) ∧
        (onDelete cfg s chatId u arg).state.files = l1 ++ l2 ∧
        ((∀ y ∈ l2, y.file_id ≠ some (trim arg)) →
          ∀ text, ∀ y ∈ searchResults env (onDelete cfg s chatId u arg).state.files text,
            y.file_id ≠ some (trim arg))) := by
  have hinc : includes cfg.ADMIN_IDS (idToString u) = true :=
    includes_of_mem_adminIds cfg _ hadmin
  constructor
  · intro hnone
    have hany : s.files.any (fun r => r.file_id == some (trim arg)) = false := by
      rw [Bool.eq_false_iff]
      intro h
      obtain ⟨r, hr, hid⟩ := (any_fileId_iff _ _).1 h
      exact hnone r hr hid
    simp [onDelete, hinc, deleteOne, hany]
  · intro hsome
    have hany : s.files.any (fun r => r.file_id == some (trim arg)) = true :=
      (any_fileId_iff _ _).2 hsome
    obtain ⟨r0, hr0, hid0⟩ := hsome
    obtain ⟨r, l1, l2, hl1, hr, hfiles, herase⟩ :=
      List.exists_of_eraseP (p := fun r => r.file_id == some (trim arg)) hr0 (by simpa using hid0)
    have hstate : (onDelete cfg s chatId u arg).state.files = l1 ++ l2 := by
      simp [onDelete, hinc, deleteOne, hany, herase]
    refine ⟨by simp [onDelete, hinc, deleteOne, hany], l1, r, l2, hfiles, by simpa using hr,
      fun y hy => by simpa using hl1 y hy, hstate, ?_⟩
    intro hl2 text y hy
    rw [hstate] at hy
    have hmem : y ∈ l1 ++ l2 := List.mem_of_mem_filter hy
    rcases List.mem_append.1 hmem with h | h
    · simpa using hl1 y h
    · exact hl2 y h

/-- C9, scenario: administrator 12345 deletes `F3` from a collection holding it once, and
deletes an unknown id. -/
theorem delete_by_id_witness :
    idToString 12345 ∈ adminIds cfgTwo ∧
    (∀ r ∈ (initState [recWar] []).files, r.file_id ≠ some (trim "nope".toList)) ∧
    (onDelete cfgTwo (initState [recAvatar, recWar] []) 5 12345 " F3 ".toList).state.files =
      [recAvatar] ∧
    (onDelete cfgTwo (initState [recWar] []) 5 12345 "nope".toList).state.files =
      (initState [recWar] []).files ∧
    (onDelete cfgTwo (initState [recWar] []) 5 12345 "nope".toList).actions =
      [.sendMessage 5 .noFileWithId] :=
  ⟨by decide, by decide, by decide,
    ((delete_by_id asciiEnv cfgTwo (initState [recWar] []) 5 12345 "nope".toList
      (by decide)).1 (by decide)).1,
    ((delete_by_id asciiEnv cfgTwo (initState [recWar] []) 5 12345 "nope".toList
      (by decide)).1 (by decide)).2⟩

end Bot

namespace Bot

/-! ## Timers and the lifetime of entries -/

theorem foldl_delete_apply (l : List Timer) : ∀ (m : Nat → Option CacheEntry) (u : Nat),
    (l.foldl (fun (m : Nat → Option CacheEntry) (t : Timer) =>
        Function.update m t.userId none) m) u =
      if l.any (fun t => t.userId == u) = true then none else m u := by
  induction l with
  | nil => intro m u; simp
  | cons t l ih =>
    intro m u
    rw [List.foldl_cons, ih]
    by_cases hl : l.any (fun t => t.userId == u) = true
    · simp [hl]
    · by_cases htu : t.userId = u
      · subst htu
        simp [hl]
      · have hut : u ≠ t.userId := fun h => htu h.symm
        simp [hl, htu, Function.update_noteq hut]

theorem fireTimers_apply (now : Nat) (s : State) (u : Nat) :
    (fireTimers now s).userSearchResults u =
      if (s.timers.filter (fun t => t.due ≤ now)).any (fun t => t.userId == u) = true then none
      else s.userSearchResults u := by
  unfold fireTimers
  simp only
  rw [foldl_delete_apply]

theorem fireTimers_some (now : Nat) (s : State) (u : Nat) (e : CacheEntry)
    (h : (fireTimers now s).userSearchResults u = some e) :
    s.userSearchResults u = some e ∧
      (s.timers.filter (fun t => t.due ≤ now)).any (fun t => t.userId == u) = false := by
  rw [fireTimers_apply] at h
  by_cases hany : (s.timers.filter (fun t => t.due ≤ now)).any (fun t => t.userId == u) = true
  · rw [if_pos hany] at h
    exact absurd h (by simp)
  · rw [if_neg hany] at h
    exact ⟨h, by simpa using hany⟩

/-- After the timers due have fired, every entry left is younger than the delay, and keeps its
timer. -/
theorem fireTimers_inv (now : Nat) (s : State) (hinv : CacheInv s) :
    CacheInv (fireTimers now s) ∧
      ∀ u e, (fireTimers now s).userSearchResults u = some e → now < e.storedAt + TTL := by
  have key : ∀ u e, (fireTimers now s).userSearchResults u = some e →
      now < e.storedAt + TTL ∧ (⟨e.storedAt + TTL, u⟩ : Timer) ∈ (fireTimers now s).timers := by
    intro u e h
    obtain ⟨hs, hany⟩ := fireTimers_some now s u e h
    have hmem := hinv u e hs
    have hlt : now < e.storedAt + TTL := by
      by_contra hge
      have hdue : e.storedAt + TTL ≤ now := not_lt.1 hge
      have : (s.timers.filter (fun t => t.due ≤ now)).any (fun t => t.userId == u) = true := by
        rw [List.any_eq_true]
        exact ⟨⟨e.storedAt + TTL, u⟩, List.mem_filter.2 ⟨hmem, by simpa using hdue⟩, by simp⟩
      rw [hany] at this
      exact absurd this (by simp)
    refine ⟨hlt, ?_⟩
    change (⟨e.storedAt + TTL, u⟩ : Timer) ∈ s.timers.filter (fun t => now < t.due)
    exact List.mem_filter.2 ⟨hmem, by simpa using hlt⟩
  exact ⟨fun u e h => (key u e h).2, fun u e h => (key u e h).1⟩

theorem onMessage_cache (env : Env) (cfg : Config) (now : Nat) (s : State) (msg : Msg) :
    ((onMessage env cfg now s msg).state.userSearchResults = s.userSearchResults ∧
      (onMessage env cfg now s msg).state.timers = s.timers) ∨
    (∃ R, (onMessage env cfg now s msg).state.userSearchResults =
        Function.update s.userSearchResults msg.fromId (some ⟨R, now⟩) ∧
      (onMessage env cfg now s msg).state.timers = s.timers ++ [⟨now + TTL, msg.fromId⟩]) := by
  unfold onMessage
  simp only
  repeat' split
  all_goals first
    | exact Or.inl ⟨rfl, rfl⟩
    | exact Or.inr ⟨_, rfl, rfl⟩

theorem onCallbackQuery_cache (env : Env) (cfg : Config) (now : Nat) (s : State) (q : Query)
    (sendOk : Bool) :
    (onCallbackQuery env cfg now s q sendOk).state.userSearchResults = s.userSearchResults ∧
      (onCallbackQuery env cfg now s q sendOk).state.timers = s.timers := by
  unfold onCallbackQuery
  split
  · exact ⟨rfl, rfl⟩
  · rw [chargeAndDeliver_eq]
    split <;> exact ⟨rfl, rfl⟩

theorem onDelete_cache (cfg : Config) (s : State) (chatId : Int) (fromId : Nat) (arg : Str) :
    (onDelete cfg s chatId fromId arg).state.userSearchResults = s.userSearchResults ∧
      (onDelete cfg s chatId fromId arg).state.timers = s.timers := by
  unfold onDelete
  simp only
  split
  · exact ⟨rfl, rfl⟩
  · split <;> exact ⟨rfl, rfl⟩

theorem dispatch_inv (env : Env) (cfg : Config) (now : Nat) (s : State) (ev : Event)
    (hinv : CacheInv s) : CacheInv (dispatch env cfg now s ev).state := by
  cases ev with
  | message msg =>
    rcases onMessage_cache env cfg now s msg with ⟨h1, h2⟩ | ⟨R, h1, h2⟩
    · intro u e h
      simp only [dispatch, h1, h2] at h ⊢
      exact hinv u e h
    · intro u e h
      simp only [dispatch, h1, h2] at h ⊢
      by_cases hu : u = msg.fromId
      · subst hu
        rw [Function.update_same] at h
        have he : e = ⟨R, now⟩ := (Option.some.inj h).symm
        subst he
        simp
      · rw [Function.update_noteq hu] at h
        exact List.mem_append_left _ (hinv u e h)
  | callbackQuery q sendOk =>
    obtain ⟨h1, h2⟩ := onCallbackQuery_cache env cfg now s q sendOk
    intro u e h
    simp only [dispatch, h1, h2] at h ⊢
    exact hinv u e h
  | deleteCommand chatId fromId arg =>
    obtain ⟨h1, h2⟩ := onDelete_cache cfg s chatId fromId arg
    intro u e h
    simp only [dispatch, h1, h2] at h ⊢
    exact hinv u e h

theorem handle_inv (env : Env) (cfg : Config) (s : State) (te : TimedEvent)
    (hinv : CacheInv s) : CacheInv (handle env cfg s te).state :=
  dispatch_inv env cfg te.time _ te.event (fireTimers_inv te.time s hinv).1

theorem run_inv (env : Env) (cfg : Config) (evs : List TimedEvent) :
    ∀ s : State, CacheInv s → CacheInv (run env cfg s evs) := by
  induction evs with
  | nil => intro s h; exact h
  | cons te rest ih => intro s h; exact ih _ (handle_inv env cfg s te h)

theorem initState_inv (files : List FileRecord) (limits : List LimitDoc) :
    CacheInv (initState files limits) := by
  intro u e h
  simp [initState] at h

/-- An event that is not a message from `u` leaves the entry of `u` as the timers left it. -/
theorem handle_cache_other (env : Env) (cfg : Config) (s : State) (te : TimedEvent) (u : Nat)
    (hno : te.event.isMessageFrom u = false) :
    (handle env cfg s te).state.userSearchResults u =
      (fireTimers te.time s).userSearchResults u := by
  obtain ⟨t, ev⟩ := te
  cases ev with
  | message msg =>
    have hne : u ≠ msg.fromId := by
      intro h
      simp [Event.isMessageFrom, h] at hno
    rcases onMessage_cache env cfg t (fireTimers t s) msg with ⟨h1, -⟩ | ⟨R, h1, -⟩
    · simp only [handle, dispatch, h1]
    · simp only [handle, dispatch, h1, Function.update_noteq hne]
  | callbackQuery q sendOk =>
    simp only [handle, dispatch, (onCallbackQuery_cache env cfg t (fireTimers t s) q sendOk).1]
  | deleteCommand chatId fromId arg =>
    simp only [handle, dispatch, (onDelete_cache cfg (fireTimers t s) chatId fromId arg).1]

theorem run_cache_other (env : Env) (cfg : Config) (u t : Nat) (evs : List TimedEvent) :
    ∀ s : State, (∀ te ∈ evs, te.event.isMessageFrom u = false) →
      (∀ e, s.userSearchResults u = some e → e.storedAt + TTL ≤ t) →
      ∀ e, (run env cfg s evs).userSearchResults u = some e → e.storedAt + TTL ≤ t := by
  induction evs with
  | nil => intro s _ h; exact h
  | cons te rest ih =>
    intro s hno h
    refine ih (handle env cfg s te).state (fun x hx => hno x (List.mem_cons_of_mem _ hx)) ?_
    intro e he
    rw [handle_cache_other env cfg s te u (hno te (List.mem_cons_self _ _))] at he
    exact h e (fireTimers_some te.time s u e he).1

/-- C6. Cache entries never outlive their deadline: in every run of the process from its
start, with each timer firing when the clock reaches its due time, a selection handled at time
`t'` that resolves to a record reads an entry stored at a time `t` with `t' < t + TTL`; and if
the entry of the user, when there is one, was stored at a time `t` with `t + TTL ≤ t'`, then
after any further events that include no message from that user, a selection by the user at
time `t'` is answered with the not-found message, whatever its callback data. -/
theorem cache_entry_within_deadline (env : Env) (cfg : Config) (files : List FileRecord)
    (limits : List LimitDoc) (evs : List TimedEvent) (t' : Nat) (q : Query) (sendOk : Bool) :
    (∀ f, resolveSelection
        ((fireTimers t' (run env cfg (initState files limits) evs)).userSearchResults q.fromId)
        (parseIndex q.data) = some f →
      ∃ e, (fireTimers t' (run env cfg (initState files limits) evs)).userSearchResults q.fromId
          = some e ∧ t' < e.storedAt + TTL) ∧
    (∀ evs2 : List TimedEvent, (∀ te ∈ evs2, te.event.isMessageFrom q.fromId = false) →
      (∀ e, (run env cfg (initState files limits) evs).userSearchResults q.fromId = some e →
        e.storedAt + TTL ≤ t') →
      handle env cfg (run env cfg (run env cfg (initState files limits) evs) evs2)
          ⟨t', .callbackQuery q sendOk⟩ =
        ⟨fireTimers t' (run env cfg (run env cfg (initState files limits) evs) evs2),
          callbackPrelude q ++ [.sendMessage q.chatId .notFoundOrExpired], none⟩) := by
  have hinv : CacheInv (run env cfg (initState files limits) evs) :=
    run_inv env cfg evs _ (initState_inv files limits)
  constructor
  · intro f hf
    cases hc : (fireTimers t' (run env cfg (initState files limits) evs)).userSearchResults
        q.fromId with
    | none =>
      rw [hc] at hf
      exact absurd hf (by simp [resolveSelection])
    | some e => exact ⟨e, rfl, (fireTimers_inv t' _ hinv).2 q.fromId e hc⟩
  · intro evs2 hno hold
    have hinv2 : CacheInv (run env cfg (run env cfg (initState files limits) evs) evs2) :=
      run_inv env cfg evs2 _ hinv
    have hold2 := run_cache_other env cfg q.fromId t' evs2 _ hno hold
    have hnone : (fireTimers t'
        (run env cfg (run env cfg (initState files limits) evs) evs2)).userSearchResults
        q.fromId = none := by
      cases hc : (fireTimers t'
          (run env cfg (run env cfg (initState files limits) evs) evs2)).userSearchResults
          q.fromId with
      | none => rfl
      | some e =>
        have h1 := (fireTimers_inv t' _ hinv2).2 q.fromId e hc
        have h2 := hold2 e (fireTimers_some t' _ q.fromId e hc).1
        omega
    simp only [handle, dispatch, onCallbackQuery, hnone, resolveSelection]

/-- C6, scenario: user 7 searches `war` at time 0; a selection at 299999 ms still resolves,
and at 300000 ms, with another user's search in between, index 0 is answered with the
not-found message. -/
theorem cache_entry_within_deadline_witness :
    (run asciiEnv cfgTwo (initState [recWar] [])
      [⟨0, .message (textMsg 7 "war")⟩]).userSearchResults (selection 7 "0").fromId =
      some ⟨[recWar], 0⟩ ∧
    resolveSelection
      ((fireTimers 299999 (run asciiEnv cfgTwo (initState [recWar] [])
        [⟨0, .message (textMsg 7 "war")⟩])).userSearchResults 7)
      (parseIndex (selection 7 "0").data) = some recWar ∧
    (handle asciiEnv cfgTwo
      (run asciiEnv cfgTwo (run asciiEnv cfgTwo (initState [recWar] [])
        [⟨0, .message (textMsg 7 "war")⟩]) [⟨1000, .message (textMsg 8 "war")⟩])
      ⟨300000, .callbackQuery (selection 7 "0") true⟩).actions =
      [.answerCallbackQuery "q".toList, .sendMessage 5 .notFoundOrExpired] ∧
    handle asciiEnv cfgTwo
      (run asciiEnv cfgTwo (run asciiEnv cfgTwo (initState [recWar] [])
        [⟨0, .message (textMsg 7 "war")⟩]) [⟨1000, .message (textMsg 8 "war")⟩])
      ⟨300000, .callbackQuery (selection 7 "0") true⟩ =
      ⟨fireTimers 300000
        (run asciiEnv cfgTwo (run asciiEnv cfgTwo (initState [recWar] [])
          [⟨0, .message (textMsg 7 "war")⟩]) [⟨1000, .message (textMsg 8 "war")⟩]),
        callbackPrelude (selection 7 "0") ++
          [.sendMessage (selection 7 "0").chatId .notFoundOrExpired], none⟩ :=
  ⟨by decide, by decide, by decide,
    (cache_entry_within_deadline asciiEnv cfgTwo [recWar] [] [⟨0, .message (textMsg 7 "war")⟩]
      300000 (selection 7 "0") true).2 [⟨1000, .message (textMsg 8 "war")⟩] (by decide)
      (fun e he => by
        have h0 : (run asciiEnv cfgTwo (initState [recWar] [])
            [⟨0, .message (textMsg 7 "war")⟩]).userSearchResults (selection 7 "0").fromId =
            some ⟨[recWar], 0⟩ := by decide
        rw [h0] at he
        have : e = ⟨[recWar], 0⟩ := (Option.some.inj he).symm
        subst this
        decide)⟩

end Bot

namespace Bot

/-! ## Media kinds of stored and cached records -/

theorem uploadType_known (msg : Msg) (h : hasMedia msg = true) :
    uploadType msg ∈ knownTypes := by
  unfold uploadType knownTypes
  unfold hasMedia at h
  cases hd : msg.document.isSome
  · cases hp : msg.photo.isSome
    · cases hv : msg.video.isSome
      · cases ha : msg.audio.isSome
        · simp [hd, hp, hv, ha] at h
        · simp
      · simp
    · simp
  · simp

theorem slice0_subset (results : List FileRecord) (n : Int) :
    ∀ r ∈ slice0 results n, r ∈ results := by
  intro r hr
  unfold slice0 at hr
  split at hr <;> exact List.mem_of_mem_take hr

theorem onMessage_files (env : Env) (cfg : Config) (now : Nat) (s : State) (msg : Msg) :
    (onMessage env cfg now s msg).state.files = s.files ∨
      (hasMedia msg = true ∧ ∃ doc : FileRecord, doc.type = uploadType msg ∧
        (onMessage env cfg now s msg).state.files = s.files ++ [doc]) := by
  unfold onMessage
  simp only
  repeat' split
  all_goals first
    | exact Or.inl rfl
    | exact Or.inr ⟨by simp_all, _, rfl, rfl⟩

theorem onMessage_cache_subset (env : Env) (cfg : Config) (now : Nat) (s : State) (msg : Msg) :
    ∀ u e, (onMessage env cfg now s msg).state.userSearchResults u = some e →
      s.userSearchResults u = some e ∨ ∀ r ∈ e.results, r ∈ s.files := by
  unfold onMessage
  simp only
  repeat' split
  all_goals first
    | exact fun u e h => Or.inl h
    | skip
  intro u e h
  simp only at h
  by_cases hu : u = msg.fromId
  · subst hu
    rw [Function.update_same] at h
    right
    intro r hr
    rw [← Option.some.inj h] at hr
    exact List.mem_of_mem_filter (slice0_subset _ _ r hr)
  · rw [Function.update_noteq hu] at h
    exact Or.inl h

theorem dispatch_knownTypes (env : Env) (cfg : Config) (now : Nat) (s : State) (ev : Event)
    (h : KnownTypes s) : KnownTypes (dispatch env cfg now s ev).state := by
  cases ev with
  | message msg =>
    constructor
    · intro r hr
      rcases onMessage_files env cfg now s msg with hf | ⟨hm, doc, hdoc, hf⟩
      · simp only [dispatch, hf] at hr
        exact h.1 r hr
      · simp only [dispatch, hf, List.mem_append, List.mem_singleton] at hr
        rcases hr with hr | rfl
        · exact h.1 r hr
        · rw [hdoc]
          exact uploadType_known msg hm
    · intro u e he r hr
      rcases onMessage_cache_subset env cfg now s msg u e he with h1 | h1
      · exact h.2 u e h1 r hr
      · exact h.1 r (h1 r hr)
  | callbackQuery q sendOk =>
    have hfiles : (onCallbackQuery env cfg now s q sendOk).state.files = s.files := by
      unfold onCallbackQuery
      split
      · rfl
      · rw [chargeAndDeliver_eq]
        split <;> rfl
    constructor
    · intro r hr
      simp only [dispatch, hfiles] at hr
      exact h.1 r hr
    · intro u e he
      simp only [dispatch, (onCallbackQuery_cache env cfg now s q sendOk).1] at he
      exact h.2 u e he
  | deleteCommand chatId fromId arg =>
    have hfiles : ∀ r ∈ (onDelete cfg s chatId fromId arg).state.files, r ∈ s.files := by
      intro r hr
      unfold onDelete deleteOne at hr
      simp only at hr
      repeat' split at hr
      all_goals first
        | exact hr
        | exact List.mem_of_mem_eraseP hr
    constructor
    · intro r hr
      exact h.1 r (hfiles r hr)
    · intro u e he
      simp only [dispatch, (onDelete_cache cfg s chatId fromId arg).1] at he
      exact h.2 u e he

/-- The upload flow only writes the four media kinds, and the selection map only holds stored
records: if the records found in the collection at start have these kinds, so has every record
a selection can resolve to. -/
theorem run_knownTypes (env : Env) (cfg : Config) (evs : List TimedEvent) :
    ∀ s : State, KnownTypes s → KnownTypes (run env cfg s evs) := by
  induction evs with
  | nil => intro s h; exact h
  | cons te rest ih =>
    intro s h
    refine ih _ (dispatch_knownTypes env cfg te.time _ te.event ⟨h.1, ?_⟩)
    intro u e he
    exact h.2 u e (fireTimers_some te.time s u e he).1

end Bot
